import Mathlib

/-!
Verification development for the versioned-config lifecycle manager of the
Fluence CLI repository (src/lib/configs/initConfig.ts).

The TypeScript source is embedded shallowly:

* strings are Lean `String`s; the JavaScript string operations used by the
  source (`trim`, `split("\n")`, `join("\n")`, `startsWith`, `endsWith`,
  `slice`) are defined below over `List Char`;
* the external collaborators (the yaml parser, `yamlDiffPatch`, the compiled
  ajv validators, the optional semantic validator, the migrations array) are
  parameters collected in `InitConfigOptions`;
* file-system effects are explicit state passing over `World` (a file map
  plus write and read logs); the process-fatal reporter `commandObj.error`
  is the `Fatal.fatal` outcome, while the catchable `throw new Error` in
  `$commit` is `CommitResult.thrown`.
-/

/-- Whitespace for the JavaScript `String.prototype.trim` (the characters the
source text can realistically contain). -/
def isWS (c : Char) : Bool :=
  c = ' ' || c = '\t' || c = '\n' || c = '\r' || c = '\x0b' || c = '\x0c'

/-- Drop the maximal whitespace suffix of a list of characters. -/
def trimR : List Char → List Char
  | [] => []
  | c :: cs =>
    match trimR cs with
    | [] => if isWS c then [] else [c]
    | r => c :: r

/-- Drop the maximal whitespace front of a list of characters. -/
def trimF (l : List Char) : List Char := l.dropWhile isWS

/-- JavaScript `s.trim()` on the character list of `s`. -/
def trimL (l : List Char) : List Char := trimR (trimF l)

/-- JavaScript `s.split("\n")` on character lists: splits at every newline and
keeps empty segments, `splitL [] = [[]]` just as `"".split("\n")` is `[""]`. -/
def splitL : List Char → List (List Char)
  | [] => [[]]
  | c :: cs =>
    if c = '\n' then [] :: splitL cs
    else
      match splitL cs with
      | [] => [[c]]
      | l :: ls => (c :: l) :: ls

/-- JavaScript `lines.join("\n")` on character lists. -/
def joinL : List (List Char) → List Char
  | [] => []
  | [l] => l
  | l :: ls => l ++ '\n' :: joinL ls

/-- JavaScript `line.trim() === ""`. -/
def blankL (l : List Char) : Bool := (trimL l).isEmpty

/-- JavaScript `line.startsWith(c)` for a one-character needle. -/
def headIs (c : Char) : List Char → Bool
  | [] => false
  | a :: _ => a == c

/-- JavaScript `s.startsWith(p)` for a general needle. -/
def prefixL : List Char → List Char → Bool
  | [], _ => true
  | _ :: _, [] => false
  | a :: as, b :: bs => a == b && prefixL as bs

/-- JavaScript `s.endsWith(p)`. -/
def suffixL (p s : List Char) : Bool := prefixL p.reverse s.reverse

/-- JavaScript `s.replace(pat, rep)` with a string pattern: replaces the first
occurrence only. -/
def replaceFirstL (pat rep : List Char) : List Char → List Char
  | [] => []
  | c :: cs =>
    if prefixL pat (c :: cs) then rep ++ (c :: cs).drop pat.length
    else c :: replaceFirstL pat rep cs

/-- JavaScript `s.slice(0, -n)`: drop the last `n` characters. -/
def dropRightL (l : List Char) (n : Nat) : List Char := l.take (l.length - n)

/- String-level wrappers used by the embedding of the loader. -/

def jsTrim (s : String) : String := ⟨trimL s.data⟩

def jsSplitNL (s : String) : List String := (splitL s.data).map (⟨·⟩)

def jsJoinNL (ls : List String) : String := ⟨joinL (ls.map (·.data))⟩

def jsStartsWith (s pre : String) : Bool := prefixL pre.data s.data

def jsEndsWith (s suf : String) : Bool := suffixL suf.data s.data

def jsDropRight (s : String) (n : Nat) : String := ⟨dropRightL s.data n⟩

def jsReplaceFirst (s pat rep : String) : String := ⟨replaceFirstL pat.data rep.data s.data⟩

/-! ## JavaScript numbers, for `Number(config.version)` and `Array.slice`

`version` is `number | string` in the source (`BaseConfig`).  `Number(v)` is
modelled as `Option Int`: `none` is `NaN`.  Only integral numeric strings are
modelled; every other string is `NaN`, and `NaN < n` is `false`. -/

inductive JsVal where
  | num (n : Int)
  | str (s : String)
deriving DecidableEq

def digitsToNum? : List Char → Option Nat
  | [] => none
  | l => if l.all (·.isDigit) then some (l.foldl (fun acc c => acc * 10 + (c.toNat - 48)) 0) else none

/-- JavaScript `Number(s)` for a string, restricted to optionally signed
integer literals; a blank string converts to `0`, anything else to `NaN`. -/
def jsStrToNum (s : String) : Option Int :=
  let t := trimL s.data
  if t.isEmpty then some 0
  else
    match t with
    | '-' :: rest => (digitsToNum? rest).map (fun n => -(n : Int))
    | _ => (digitsToNum? t).map Int.ofNat

def jsToNumber : JsVal → Option Int
  | .num n => some n
  | .str s => jsStrToNum s

/-- JavaScript `Number(v) < n` for a `Nat` right-hand side: false on `NaN`. -/
def jsLtNum (v : Option Int) (n : Nat) : Bool :=
  match v with
  | none => false
  | some i => decide (i < (n : Int))

/-- JavaScript `arr.slice(start)` with a possibly `NaN` (`none`) or negative
start index. -/
def jsSlice {α : Type} (l : List α) : Option Int → List α
  | none => l
  | some i => if 0 ≤ i then l.drop i.toNat else l.drop (l.length - (-i).toNat)

/-! ## `formatConfig` (initConfig.ts lines 464-501)

The blank-line formatter: trim, split into lines, drop blank lines, insert a
blank line before a block of comments and before every non-first non-indented
non-comment line whose predecessor is not a comment, join, trim, append one
newline.  The flatMap callback reads `ar[i - 1]`, the previous line of the
*original* array (which can be a blank line); `fmtChunk` receives exactly
that previous line. -/

def prevIsComment : Option (List Char) → Bool
  | none => false
  | some p => headIs '#' p

/-- One step of the `flatMap` in `formatConfig`: `prev` is `ar[i - 1]`. -/
def fmtChunk (prev : Option (List Char)) (line : List Char) : List (List Char) :=
  if blankL line then []
  else if headIs '#' line && !prevIsComment prev then [[], line]
  else if prev.isNone || headIs ' ' line || headIs '#' line || prevIsComment prev then [line]
  else [[], line]

def fmtGo (prev : Option (List Char)) : List (List Char) → List (List Char)
  | [] => []
  | l :: ls => fmtChunk prev l ++ fmtGo (some l) ls

def formatL (s : List Char) : List Char :=
  trimL (joinL (fmtGo none (splitL (trimL s)))) ++ ['\n']

/-- `formatConfig` of initConfig.ts. -/
def formatConfig (s : String) : String := ⟨formatL s.data⟩

example : formatConfig "a: 1\nb: 2\n" = "a: 1\n\nb: 2\n" := by decide
example : formatConfig "# c\na: 1\n\n\nb: 2" = "# c\na: 1\n\nb: 2\n" := by decide
example : formatConfig (formatConfig "# c\nx: 1\ny: 2") = formatConfig "# c\nx: 1\ny: 2" := by decide

/-! ## The file system world

Explicit state for `node:fs/promises`: an association map from path to file
text, plus a write log (every `writeFile` call, in order) and a read log
(every `readFile` call, in order). -/

structure World where
  files : List (String × String)
  writeLog : List (String × String)
  readLog : List String
deriving DecidableEq

def lookupAssoc {β : Type} : List (String × β) → String → Option β
  | [], _ => none
  | (k, v) :: rest, p => if k = p then some v else lookupAssoc rest p

def setAssoc {β : Type} : List (String × β) → String → β → List (String × β)
  | [], p, c => [(p, c)]
  | (k, v) :: rest, p, c => if k = p then (p, c) :: rest else (k, v) :: setAssoc rest p c

/-- `readFile(p)`: returns the content when the file exists, logging the read. -/
def readFileM (p : String) (w : World) : Option String × World :=
  (lookupAssoc w.files p, { w with readLog := w.readLog ++ [p] })

/-- `writeFile(p, c)`: atomically replaces the file content, logging the write. -/
def writeFileM (p c : String) (w : World) : World :=
  { files := setAssoc w.files p c, writeLog := w.writeLog ++ [(p, c)], readLog := w.readLog }

/-- `saveConfig` (initConfig.ts lines 503-510): formats the text and writes it,
returning the formatted text. -/
def saveConfigM (configPath migratedConfigString : String) (w : World) : String × World :=
  let configToSave := formatConfig migratedConfigString
  (configToSave, writeFileM configPath configToSave w)

/-! ## Options and outcomes -/

/-- The data of `InitConfigOptions` together with the external collaborators
the loader closes over: the compiled ajv validators, the yaml parser,
`yamlDiffPatch`, and the result of `ensureSchema` (`schemaRelPath`, the path
of the generated schema file relative to the config directory; the schema
file itself is outside the config lifecycle modelled here).  `Cfg` is the
type of parsed configs. -/
structure InitConfigOptions (Cfg : Type) where
  name : String
  getConfigOrConfigDirPath : String
  migrations : List (Cfg → Cfg)
  validateAllConfigVersions : Cfg → Bool
  validateLatestConfig : Cfg → Bool
  validate : Option (Cfg → String → Option String)
  getVersion : Cfg → JsVal
  parse : String → Cfg
  yamlDiffPatch : String → Cfg → Cfg → String
  schemaRelPath : String
  description : Option String
  docsInConfigs : Bool
  emptyObj : Cfg

/-- Outcome of an operation that can end in `commandObj.error` (the fatal
process-level reporter, which never returns). -/
inductive Fatal (α : Type) where
  | ok (a : α)
  | fatal (msg : String)
deriving DecidableEq

/-! ## `migrateConfig` (initConfig.ts lines 78-143) -/

/-- The `for (const migration of migrations.slice(...))` loop body: left fold,
each migration receiving the previous result. -/
def migrateLoop {Cfg : Type} (ms : List (Cfg → Cfg)) (c : Cfg) : Cfg :=
  ms.foldl (fun acc m => m acc) c

/-- Instrumented copy of the migration loop: also returns, per applied
migration, its index in the full `migrations` array and its input and
output. -/
def migrateLoopT {Cfg : Type} (ms : List (Cfg → Cfg)) (i : Nat) (c : Cfg) :
    List (Nat × Cfg × Cfg) × Cfg :=
  match ms with
  | [] => ([], c)
  | m :: rest =>
    let c1 := m c
    let p := migrateLoopT rest (i + 1) c1
    ((i, c, c1) :: p.1, p.2)

/-- The trace is sequentially chained: the first step consumes `c`, each later
step consumes the output of the step before it, and the final value is the
last output. -/
def Chained {Cfg : Type} (c : Cfg) : List (Nat × Cfg × Cfg) → Cfg → Prop
  | [], cf => cf = c
  | (_, a, b) :: tr, cf => a = c ∧ Chained b tr cf

/-- `migrateConfig`: runs the migration slice, diff-patches the migrated value
into the original text, re-parses, validates against the latest schema and the
optional semantic validator (both failures are fatal), and persists through
`saveConfig` only when the merged text differs from the original text. -/
def migrateConfigM {Cfg : Type} (opts : InitConfigOptions Cfg)
    (configPath configString : String) (config : Cfg) (w : World) :
    Fatal (Cfg × String) × World :=
  let migratedConfig :=
    migrateLoop (jsSlice opts.migrations (jsToNumber (opts.getVersion config))) config
  let migratedConfigString :=
    opts.yamlDiffPatch configString (opts.parse configString) migratedConfig
  let latestConfig := opts.parse migratedConfigString
  if !opts.validateLatestConfig latestConfig then
    (.fatal "migrated config failed latest schema", w)
  else
    match opts.validate with
    | some v =>
      match v latestConfig configPath with
      | some e => (.fatal e, w)
      | none =>
        if configString ≠ migratedConfigString then
          (.ok (latestConfig, migratedConfigString),
            (saveConfigM configPath migratedConfigString w).2)
        else (.ok (latestConfig, migratedConfigString), w)
    | none =>
      if configString ≠ migratedConfigString then
        (.ok (latestConfig, migratedConfigString),
          (saveConfigM configPath migratedConfigString w).2)
      else (.ok (latestConfig, migratedConfigString), w)

/-- `ensureConfigIsValidLatest` (initConfig.ts lines 156-189): pure validation
of an already-latest config, fatal on failure. -/
def ensureConfigIsValidLatestM {Cfg : Type} (opts : InitConfigOptions Cfg)
    (configPath : String) (config : Cfg) : Fatal Cfg :=
  if !opts.validateLatestConfig config then
    .fatal "config failed latest schema"
  else
    match opts.validate with
    | some v =>
      match v config configPath with
      | some e => .fatal e
      | none => .ok config
    | none => .ok config

/-- initConfig.ts lines 411-444: parse, validate against the union of all
known schemas, then either migrate (when `Number(config.version)` is less
than `migrations.length`) or check the latest shape directly. -/
def validateAndMigrateM {Cfg : Type} (opts : InitConfigOptions Cfg)
    (configPath configString : String) (w : World) :
    Fatal (Cfg × String) × World :=
  let config := opts.parse configString
  if !opts.validateAllConfigVersions config then
    (.fatal "config matches no known schema version", w)
  else if jsLtNum (jsToNumber (opts.getVersion config)) opts.migrations.length then
    migrateConfigM opts configPath configString config w
  else
    match ensureConfigIsValidLatestM opts configPath config with
    | .fatal m => (.fatal m, w)
    | .ok latest => (.ok (latest, configString), w)

/-! ## Path resolution and the schema comment -/

/-- Modelled from the spec: `const.ts` is not under src/; the spec treats
`.yaml` and `.yml` as the two interchangeable config extensions, and the
source appends `.${YAML_EXT}` to the config name, so `YAML_EXT = "yaml"`. -/
def YAML_EXT : String := "yaml"

/-- Modelled from the spec: sibling extension constant, `YML_EXT = "yml"`. -/
def YML_EXT : String := "yml"

/-- `node:path` `join(a, b)` for the simple relative paths used here. -/
def joinPath (a b : String) : String := a ++ "/" ++ b

/-- `node:path` `dirname`: everything before the final slash, `"."` when the
path has no slash. -/
def dirname (p : String) : String :=
  if p.data.contains '/' then ⟨((p.data.reverse.dropWhile (· ≠ '/')).drop 1).reverse⟩
  else "."

/-- `getConfigPath` (initConfig.ts lines 241-255).  Note the source tests
`endsWith(YAML_EXT)` without the dot. -/
def getConfigPath (configOrConfigDirPath configName : String) : String × String :=
  if jsEndsWith configOrConfigDirPath YAML_EXT || jsEndsWith configOrConfigDirPath YML_EXT then
    (configOrConfigDirPath, dirname configOrConfigDirPath)
  else
    (joinPath configOrConfigDirPath configName, configOrConfigDirPath)

/-- initConfig.ts lines 353-357: the sibling-extension path, replacing `.yaml`
by `.yml` and anything else by `.yaml` (the source strips `YML_EXT.length`
characters whenever the path does not end in `.yaml`). -/
def siblingPath (configPath : String) : String :=
  let endsWithYaml := jsEndsWith configPath ("." ++ YAML_EXT)
  jsDropRight configPath (if endsWithYaml then YAML_EXT else YML_EXT).length ++
    (if endsWithYaml then YML_EXT else YAML_EXT)

def schemaPathCommentStart : String := "# yaml-language-server: $schema="

/-- The correct schema-reference comment for a config whose generated schema
sits at `relPath` relative to the config directory. -/
def schemaPathComment (relPath : String) : String := schemaPathCommentStart ++ relPath

/-- initConfig.ts lines 363-371: insert the schema comment, or replace the
first line when it already is a schema comment. -/
def updateSchemaComment (comment fileContent : String) : String :=
  if jsStartsWith fileContent schemaPathCommentStart then
    jsTrim (jsJoinNL (comment :: (jsSplitNL fileContent).drop 1)) ++ "\n"
  else
    comment ++ "\n" ++ jsTrim fileContent ++ "\n"

/-- initConfig.ts lines 363-375: compute the comment-corrected text and
persist it through `saveConfig` only when it differs from the file content. -/
def schemaCommentPhase (configPath fileContent comment : String) (w : World) :
    String × World :=
  let configString := updateSchemaComment comment fileContent
  if configString ≠ fileContent then
    (configString, (saveConfigM configPath configString w).2)
  else
    (configString, w)

/-- initConfig.ts lines 383-406: the default config text written when no file
exists and a default generator was supplied. -/
def mkDefaultConfigString {Cfg : Type} (opts : InitConfigOptions Cfg)
    (comment defConf : String) : String :=
  let documentationLinkComment :=
    "# Documentation: https://github.com/fluencelabs/cli/tree/main/docs/configs/" ++
      jsReplaceFirst opts.name ("." ++ YAML_EXT) "" ++ ".md"
  let description :=
    match opts.description with
    | some d => "\n\n# " ++ d
    | none => ""
  if opts.docsInConfigs then
    comment ++ "\n\n" ++ documentationLinkComment ++ "\n" ++ defConf
  else
    opts.yamlDiffPatch
      (comment ++ "\n" ++ description ++ "\n\n" ++ documentationLinkComment ++ "\n")
      opts.emptyObj (opts.parse defConf)

/-! ## The read-only loader (`getReadonlyConfigInitFunction`, lines 257-460) -/

/-- The data of `InitializedReadonlyConfig`: `$getPath`, `$getConfigString`
and the latest config value (`$getDirPath` is `dirname path` and
`$validateLatest` is `opts.validateLatestConfig`). -/
structure ReadonlyHandle (Cfg : Type) where
  path : String
  configString : String
  latestConfig : Cfg
deriving DecidableEq

/-- The tail of the loader after a successful read: schema-comment fixing then
validation and migration. -/
def afterRead {Cfg : Type} (opts : InitConfigOptions Cfg)
    (configPath fileContent comment : String) (w : World) :
    Fatal (Option (ReadonlyHandle Cfg)) × World :=
  let p := schemaCommentPhase configPath fileContent comment w
  match validateAndMigrateM opts configPath p.1 p.2 with
  | (.fatal m, w2) => (.fatal m, w2)
  | (.ok (latest, configString2), w2) =>
    (.ok (some ⟨configPath, configString2, latest⟩), w2)

/-- The `catch` branch of the loader (initConfig.ts lines 376-409): return
null without a default generator, otherwise create the default config file. -/
def catchBranch {Cfg : Type} (opts : InitConfigOptions Cfg)
    (configPath comment : String) (getDefaultConfig : Option String) (w : World) :
    Fatal (Option (ReadonlyHandle Cfg)) × World :=
  match getDefaultConfig with
  | none => (.ok none, w)
  | some defConf =>
    let configString := mkDefaultConfigString opts comment defConf
    let w2 := (saveConfigM configPath configString w).2
    match validateAndMigrateM opts configPath configString w2 with
    | (.fatal m, w3) => (.fatal m, w3)
    | (.ok (latest, configString2), w3) =>
      (.ok (some ⟨configPath, configString2, latest⟩), w3)

/-- The function returned by `getReadonlyConfigInitFunction`: resolve the
path, read the file (falling back once to the sibling `.yaml`/`.yml`
extension), fix the schema comment, or create a default config; then validate
and migrate.  `getDefaultConfig` is the optional default-config generator,
modelled by the text it returns. -/
def initReadonlyConfig {Cfg : Type} (opts : InitConfigOptions Cfg)
    (getDefaultConfig : Option String) (w : World) :
    Fatal (Option (ReadonlyHandle Cfg)) × World :=
  let configFullName := opts.name ++ "." ++ YAML_EXT
  let configPath0 := (getConfigPath opts.getConfigOrConfigDirPath configFullName).1
  let comment := schemaPathComment opts.schemaRelPath
  let r1 := readFileM configPath0 w
  match r1.1 with
  | some fileContent => afterRead opts configPath0 fileContent comment r1.2
  | none =>
    let endsWithYaml := jsEndsWith configPath0 ("." ++ YAML_EXT)
    let endsWithYml := jsEndsWith configPath0 ("." ++ YML_EXT)
    if !endsWithYaml && !endsWithYml && getDefaultConfig.isSome then
      catchBranch opts configPath0 comment getDefaultConfig r1.2
    else
      let newConfigPath := siblingPath configPath0
      let r2 := readFileM newConfigPath r1.2
      match r2.1 with
      | some fileContent => afterRead opts newConfigPath fileContent comment r2.2
      | none => catchBranch opts configPath0 comment getDefaultConfig r2.2

/-! ## `$commit` and the mutable handle (`getConfigInitFunction`, lines 512-606) -/

/-- Result of `$commit`: `thrown` is the catchable `throw new Error`, `fatal`
is the process-level reporter `commandObj.error` (which `$commit` never
calls). -/
inductive CommitResult where
  | ok (newConfigString : String)
  | thrown (msg : String)
  | fatal (msg : String)
deriving DecidableEq

/-- `$commit` (initConfig.ts lines 565-597): diff-patch the data snapshot of
the handle into the cached text, trim and re-terminate, throw (catchably) when
the snapshot fails the latest validator, and otherwise persist through
`saveConfig` only when the text changed, caching the formatted text that
`saveConfig` returns. -/
def commitM {Cfg : Type} (opts : InitConfigOptions Cfg)
    (configPath configString : String) (data : Cfg) (w : World) :
    CommitResult × World :=
  let newConfigString :=
    jsTrim (opts.yamlDiffPatch configString (opts.parse configString) data) ++ "\n"
  if !opts.validateLatestConfig data then
    (.thrown "could not save config", w)
  else if configString ≠ newConfigString then
    let p := saveConfigM configPath newConfigString w
    (.ok p.1, p.2)
  else
    (.ok configString, w)

/-- The data fields of a mutable handle (`InitializedConfig`): the resolved
path, the cached serialized text, and the (mutable) config value. -/
structure MutableHandle (Cfg : Type) where
  path : String
  configString : String
  data : Cfg
deriving DecidableEq

/-- Process state of `getConfigInitFunction`: the world, the heap of mutable
handles (a handle *reference* is an index into this heap) and
`initializedConfigs`, the process-wide cache from resolved path to handle
reference. -/
structure Session (Cfg : Type) where
  world : World
  handles : List (MutableHandle Cfg)
  cache : List (String × Nat)
deriving DecidableEq

/-- The function returned by `getConfigInitFunction` (initConfig.ts lines
534-605): resolve the requested path, short-circuit on an `initializedConfigs`
hit, otherwise run the read-only loader, wrap the result in a fresh mutable
handle, and cache it under the handle path returned by `$getPath()`. -/
def initConfigM {Cfg : Type} (opts : InitConfigOptions Cfg)
    (getDefaultConfig : Option String) (s : Session Cfg) :
    Fatal (Option Nat) × Session Cfg :=
  let configFullName := opts.name ++ "." ++ YAML_EXT
  let configPath0 := (getConfigPath opts.getConfigOrConfigDirPath configFullName).1
  match lookupAssoc s.cache configPath0 with
  | some id => (.ok (some id), s)
  | none =>
    match initReadonlyConfig opts getDefaultConfig s.world with
    | (.fatal m, w) => (.fatal m, { s with world := w })
    | (.ok none, w) => (.ok none, { s with world := w })
    | (.ok (some ro), w) =>
      let id := s.handles.length
      let h : MutableHandle Cfg := ⟨ro.path, ro.configString, ro.latestConfig⟩
      (.ok (some id),
        { world := w, handles := s.handles ++ [h], cache := setAssoc s.cache ro.path id })

/-! ## Lemmas about the migration loop (claim C1) -/

theorem migrateLoopT_snd {Cfg : Type} (ms : List (Cfg → Cfg)) (i : Nat) (c : Cfg) :
    (migrateLoopT ms i c).2 = migrateLoop ms c := by
  induction ms generalizing i c with
  | nil => rfl
  | cons m rest ih => simpa [migrateLoopT, migrateLoop] using ih (i + 1) (m c)

theorem migrateLoopT_map_idx {Cfg : Type} (ms : List (Cfg → Cfg)) (i : Nat) (c : Cfg) :
    (migrateLoopT ms i c).1.map (fun e => e.1) = List.range' i ms.length := by
  induction ms generalizing i c with
  | nil => rfl
  | cons m rest ih => simp [migrateLoopT, List.range', ih (i + 1) (m c)]

theorem migrateLoopT_chained {Cfg : Type} (ms : List (Cfg → Cfg)) (i : Nat) (c : Cfg) :
    Chained c (migrateLoopT ms i c).1 (migrateLoopT ms i c).2 := by
  induction ms generalizing i c with
  | nil => simp [migrateLoopT, Chained]
  | cons m rest ih => exact ⟨rfl, ih (i + 1) (m c)⟩

theorem migrateLoopT_steps {Cfg : Type} (full : List (Cfg → Cfg)) :
    ∀ (ms : List (Cfg → Cfg)) (i : Nat) (c : Cfg),
      (∀ j, full[i + j]? = ms[j]?) →
      ∀ e ∈ (migrateLoopT ms i c).1, ∃ m, full[e.1]? = some m ∧ e.2.2 = m e.2.1 := by
  intro ms
  induction ms with
  | nil => intro i c _ e he; simp [migrateLoopT] at he
  | cons m rest ih =>
    intro i c hget e he
    simp only [migrateLoopT, List.mem_cons] at he
    rcases he with rfl | he
    · refine ⟨m, ?_, rfl⟩
      have h0 := hget 0
      simpa using h0
    · refine ih (i + 1) (m c) (fun j => ?_) e he
      have := hget (j + 1)
      simpa [Nat.add_assoc, Nat.add_comm 1 j] using this

theorem jsSlice_nat {α : Type} (l : List α) (V : Nat) :
    jsSlice l (some (Int.ofNat V)) = l.drop V := by
  simp [jsSlice]

/-- C1: for every config with numeric version `V` such that
`V < migrations.length`, the migration loop of `migrateConfig`
(`migrations.slice(Number(config.version))`, the slice embedded in
`migrateConfigM` as `migrateLoop (jsSlice ...)`) applies exactly the migration
functions at indices `V, V+1, ..., migrations.length - 1` (the trace indices
are `List.range' V (migrations.length - V)`), each exactly once, strictly in
ascending index order, sequentially, with each migration receiving the
previous step output and the first receiving the parsed config (`Chained`). -/
theorem migrateConfig_applies_migrations_in_order {Cfg : Type}
    (opts : InitConfigOptions Cfg) (config : Cfg) (V : Nat)
    (hv : opts.getVersion config = JsVal.num (Int.ofNat V))
    (hlt : V < opts.migrations.length) :
    ((migrateLoopT (opts.migrations.drop V) V config).1.map (fun e => e.1) =
        List.range' V (opts.migrations.length - V))
    ∧ Chained config (migrateLoopT (opts.migrations.drop V) V config).1
        (migrateLoopT (opts.migrations.drop V) V config).2
    ∧ (∀ e ∈ (migrateLoopT (opts.migrations.drop V) V config).1,
        ∃ m, opts.migrations[e.1]? = some m ∧ e.2.2 = m e.2.1)
    ∧ migrateLoop (jsSlice opts.migrations (jsToNumber (opts.getVersion config))) config =
        (migrateLoopT (opts.migrations.drop V) V config).2 := by
  refine ⟨?_, migrateLoopT_chained _ _ _, ?_, ?_⟩
  · rw [migrateLoopT_map_idx]
    simp
  · exact migrateLoopT_steps opts.migrations (opts.migrations.drop V) V config
      (fun j => (List.getElem?_drop opts.migrations V j).symm) 
  · rw [hv]
    simp only [jsToNumber, jsSlice_nat, migrateLoopT_snd]

/-- Witness for C1 at a concrete input: three migrations over `Nat`, version
`1`; the loop applies exactly the migrations at indices 1 and 2, in order. -/
theorem migrateConfig_applies_migrations_in_order_witness :
    (({ name := "n", getConfigOrConfigDirPath := "d",
        migrations := [fun c => c + 1, fun c => c * 2, fun c => c + 10],
        validateAllConfigVersions := fun _ => true,
        validateLatestConfig := fun _ => true, validate := none,
        getVersion := fun _ => JsVal.num (Int.ofNat 1),
        parse := fun s => s.length, yamlDiffPatch := fun s _ _ => s,
        schemaRelPath := "schemas/n.json", description := none,
        docsInConfigs := false, emptyObj := 0 } : InitConfigOptions Nat).getVersion 5 =
          JsVal.num (Int.ofNat 1))
    ∧ (1 < ([fun c => c + 1, fun c => c * 2, fun c => c + 10] : List (Nat → Nat)).length)
    ∧ (((migrateLoopT (([fun c => c + 1, fun c => c * 2, fun c => c + 10] :
          List (Nat → Nat)).drop 1) 1 5).1.map (fun e => e.1) = List.range' 1 2)) := by
  refine ⟨rfl, by decide, ?_⟩
  have h := migrateConfig_applies_migrations_in_order
    { name := "n", getConfigOrConfigDirPath := "d",
      migrations := [fun c => c + 1, fun c => c * 2, fun c => c + 10],
      validateAllConfigVersions := fun _ => true,
      validateLatestConfig := fun _ => true, validate := none,
      getVersion := fun _ => JsVal.num (Int.ofNat 1),
      parse := fun s => s.length, yamlDiffPatch := fun s _ _ => s,
      schemaRelPath := "schemas/n.json", description := none,
      docsInConfigs := false, emptyObj := 0 }
    5 1 rfl (by decide)
  simpa using h.1

/-- The path the init functions resolve from the caller-supplied
`getConfigOrConfigDirPath` and the config file name. -/
def requestedConfigPath {Cfg : Type} (opts : InitConfigOptions Cfg) : String :=
  (getConfigPath opts.getConfigOrConfigDirPath (opts.name ++ "." ++ YAML_EXT)).1

/-- C2: at each of the three persistence sites (the schema-comment phase of
the loader, `migrateConfig`, and `$commit`), when the newly computed
serialized text equals the previously known text byte for byte, no file write
occurs: the world (files, write log, read log) is left unchanged. -/
theorem no_write_when_text_unchanged (Cfg : Type) :
    (∀ (opts : InitConfigOptions Cfg) (path cs : String) (config : Cfg) (w : World),
      opts.yamlDiffPatch cs (opts.parse cs)
          (migrateLoop (jsSlice opts.migrations (jsToNumber (opts.getVersion config))) config) =
        cs →
      (migrateConfigM opts path cs config w).2 = w)
    ∧ (∀ (path fileContent comment : String) (w : World),
        updateSchemaComment comment fileContent = fileContent →
        schemaCommentPhase path fileContent comment w = (fileContent, w))
    ∧ (∀ (opts : InitConfigOptions Cfg) (path cs : String) (d : Cfg) (w : World),
        jsTrim (opts.yamlDiffPatch cs (opts.parse cs) d) ++ "\n" = cs →
        (commitM opts path cs d w).2 = w) := by
  refine ⟨?_, ?_, ?_⟩
  · intro opts path cs config w h
    simp only [migrateConfigM, h]
    split
    · rfl
    · split
      · split
        · rfl
        · simp
      · simp
  · intro path fileContent comment w h
    simp [schemaCommentPhase, h]
  · intro opts path cs d w h
    simp only [commitM, h]
    split <;> simp_all

/-- Witness for C2: concrete inputs where the recomputed text equals the known
text, so each of the three sites leaves the world unchanged. -/
theorem no_write_when_text_unchanged_witness :
    ((migrateConfigM
        ({ name := "n", getConfigOrConfigDirPath := "d", migrations := [],
           validateAllConfigVersions := fun _ => true,
           validateLatestConfig := fun _ => true, validate := none,
           getVersion := fun _ => JsVal.num 7, parse := fun s => s.length,
           yamlDiffPatch := fun s _ _ => s, schemaRelPath := "r",
           description := none, docsInConfigs := false,
           emptyObj := 0 } : InitConfigOptions Nat)
        "p" "a: 1\n" 3 ⟨[], [], []⟩).2 = ⟨[], [], []⟩)
    ∧ (schemaCommentPhase "p" "# yaml-language-server: $schema=r\na: 1\n"
        (schemaPathComment "r") ⟨[], [], []⟩ =
        ("# yaml-language-server: $schema=r\na: 1\n", ⟨[], [], []⟩))
    ∧ ((commitM
        ({ name := "n", getConfigOrConfigDirPath := "d", migrations := [],
           validateAllConfigVersions := fun _ => true,
           validateLatestConfig := fun _ => true, validate := none,
           getVersion := fun _ => JsVal.num 7, parse := fun s => s.length,
           yamlDiffPatch := fun s _ _ => s, schemaRelPath := "r",
           description := none, docsInConfigs := false,
           emptyObj := 0 } : InitConfigOptions Nat)
        "p" "a: 1\n" 3 ⟨[], [], []⟩).2 = ⟨[], [], []⟩) := by
  refine ⟨?_, ?_, ?_⟩
  · exact (no_write_when_text_unchanged Nat).1 _ "p" "a: 1\n" 3 ⟨[], [], []⟩ rfl
  · exact (no_write_when_text_unchanged Nat).2.1 "p" _ _ ⟨[], [], []⟩ (by decide)
  · exact (no_write_when_text_unchanged Nat).2.2 _ "p" "a: 1\n" 3 ⟨[], [], []⟩ (by decide)

/-- C4: when the data snapshot of a mutable handle fails the latest-schema
validator, `$commit` throws a catchable error (`CommitResult.thrown`, not the
fatal process-level reporter `CommitResult.fatal`) and it throws before any
file write: the world, hence the on-disk content, is unchanged, and no new
cached text is produced. -/
theorem commit_invalid_throws_before_write {Cfg : Type}
    (opts : InitConfigOptions Cfg) (configPath configString : String)
    (data : Cfg) (w : World)
    (h : opts.validateLatestConfig data = false) :
    commitM opts configPath configString data w = (.thrown "could not save config", w) := by
  simp [commitM, h]

/-- Witness for C4: a concrete handle whose data fails the validator; commit
throws and the world is untouched. -/
theorem commit_invalid_throws_before_write_witness :
    commitM
      ({ name := "n", getConfigOrConfigDirPath := "d", migrations := [],
         validateAllConfigVersions := fun _ => true,
         validateLatestConfig := fun v => decide (v < 2), validate := none,
         getVersion := fun _ => JsVal.num 0, parse := fun s => s.length,
         yamlDiffPatch := fun s _ _ => s, schemaRelPath := "r",
         description := none, docsInConfigs := false,
         emptyObj := 0 } : InitConfigOptions Nat)
      "p" "a: 1\n" 5 ⟨[("p", "a: 1\n")], [], []⟩ =
      (.thrown "could not save config", ⟨[("p", "a: 1\n")], [], []⟩) :=
  commit_invalid_throws_before_write _ "p" "a: 1\n" 5 ⟨[("p", "a: 1\n")], [], []⟩ (by decide)

/-- C8: when neither the requested config file nor its sibling-extension
variant exists and no default-config generator was supplied, the loader
returns `ok none` (a null result): no fatal report, no thrown error, no file
write; only the two failed reads are logged. -/
theorem loader_missing_file_returns_null {Cfg : Type}
    (opts : InitConfigOptions Cfg) (w : World)
    (hreq : lookupAssoc w.files (requestedConfigPath opts) = none)
    (hsib : lookupAssoc w.files (siblingPath (requestedConfigPath opts)) = none) :
    initReadonlyConfig opts none w =
      (.ok none,
        { w with readLog := w.readLog ++
            [requestedConfigPath opts, siblingPath (requestedConfigPath opts)] }) := by
  simp only [initReadonlyConfig, readFileM, requestedConfigPath] at *
  rw [hreq]
  simp only [Option.isSome_none, Bool.and_false, Bool.false_eq_true, if_false]
  rw [hsib]
  simp [catchBranch, List.append_assoc]

/-- Witness for C8: a world with no matching files yields the null result. -/
theorem loader_missing_file_returns_null_witness :
    initReadonlyConfig
      ({ name := "foo", getConfigOrConfigDirPath := "d", migrations := [],
         validateAllConfigVersions := fun _ => true,
         validateLatestConfig := fun _ => true, validate := none,
         getVersion := fun _ => JsVal.num 0, parse := fun s => s.length,
         yamlDiffPatch := fun s _ _ => s, schemaRelPath := "r",
         description := none, docsInConfigs := false,
         emptyObj := 0 } : InitConfigOptions Nat)
      none ⟨[("elsewhere", "x")], [], []⟩ =
      (.ok none, ⟨[("elsewhere", "x")], [], ["d/foo.yaml", "d/foo.yml"]⟩) := by
  have h := loader_missing_file_returns_null
    { name := "foo", getConfigOrConfigDirPath := "d", migrations := [],
      validateAllConfigVersions := fun _ => true,
      validateLatestConfig := fun _ => true, validate := none,
      getVersion := fun _ => JsVal.num 0, parse := fun s => s.length,
      yamlDiffPatch := fun s _ _ => s, schemaRelPath := "r",
      description := none, docsInConfigs := false, emptyObj := 0 }
    ⟨[("elsewhere", "x")], [], []⟩ (by decide) (by decide)
  simpa using h

/-- C10: when the version field of the parsed config is a string that does not
convert to a number (`Number(config.version)` is `NaN`, i.e. `none`), the
migration-needed test `Number(config.version) < migrations.length` is false,
so the loader never invokes a migration and instead validates the config
directly through `ensureConfigIsValidLatest` (latest schema plus the optional
semantic validator). -/
theorem nan_version_skips_migration {Cfg : Type}
    (opts : InitConfigOptions Cfg) (configPath configString : String) (w : World)
    (hnan : jsToNumber (opts.getVersion (opts.parse configString)) = none)
    (hall : opts.validateAllConfigVersions (opts.parse configString) = true) :
    jsLtNum (jsToNumber (opts.getVersion (opts.parse configString)))
        opts.migrations.length = false
    ∧ validateAndMigrateM opts configPath configString w =
        (match ensureConfigIsValidLatestM opts configPath (opts.parse configString) with
          | .fatal m => (.fatal m, w)
          | .ok latest => (.ok (latest, configString), w)) := by
  constructor
  · rw [hnan]; rfl
  · simp only [validateAndMigrateM, hall, hnan]
    rfl

/-- Witness for C10: version `"abc"` does not parse as a number, so the loader
validates directly and applies no migration. -/
theorem nan_version_skips_migration_witness :
    (jsToNumber (JsVal.str "abc") = none)
    ∧ validateAndMigrateM
        ({ name := "n", getConfigOrConfigDirPath := "d",
           migrations := [fun c => c + 1],
           validateAllConfigVersions := fun _ => true,
           validateLatestConfig := fun _ => true, validate := none,
           getVersion := fun _ => JsVal.str "abc", parse := fun s => s.length,
           yamlDiffPatch := fun s _ _ => s, schemaRelPath := "r",
           description := none, docsInConfigs := false,
           emptyObj := 0 } : InitConfigOptions Nat)
        "p" "v: abc\n" ⟨[], [], []⟩ =
        (.ok (("v: abc\n" : String).length, "v: abc\n"), ⟨[], [], []⟩) := by
  refine ⟨by decide, ?_⟩
  have h := nan_version_skips_migration
    { name := "n", getConfigOrConfigDirPath := "d",
      migrations := [fun c => c + 1],
      validateAllConfigVersions := fun _ => true,
      validateLatestConfig := fun _ => true, validate := none,
      getVersion := fun _ => JsVal.str "abc", parse := fun s => s.length,
      yamlDiffPatch := fun s _ _ => s, schemaRelPath := "r",
      description := none, docsInConfigs := false, emptyObj := 0 }
    "p" "v: abc\n" ⟨[], [], []⟩ (by decide) rfl
  rw [h.2]
  rfl

/-! ## Lemmas about trimming (towards claims C6 and C9) -/

theorem trimF_cons_of_not_ws {c : Char} (h : isWS c = false) (cs : List Char) :
    trimF (c :: cs) = c :: cs := by
  simp [trimF, List.dropWhile_cons, h]

theorem trimF_cons_of_ws {c : Char} (h : isWS c = true) (cs : List Char) :
    trimF (c :: cs) = trimF cs := by
  simp [trimF, List.dropWhile_cons, h]

theorem trimF_head_not_ws {l r : List Char} {c : Char} (h : trimF l = c :: r) :
    isWS c = false := by
  induction l with
  | nil => simp [trimF] at h
  | cons a as ih =>
    by_cases ha : isWS a
    · rw [trimF_cons_of_ws ha] at h; exact ih h
    · rw [trimF_cons_of_not_ws (by simpa using ha)] at h
      cases h; simpa using ha

theorem trimF_eq_nil_iff {l : List Char} : trimF l = [] ↔ l.all isWS = true := by
  induction l with
  | nil => simp [trimF]
  | cons a as ih =>
    by_cases ha : isWS a
    · rw [trimF_cons_of_ws ha]; simp [ha, ih]
    · rw [trimF_cons_of_not_ws (by simpa using ha)]
      simp [ha]

theorem trimR_append_not_ws {c : Char} (h : isWS c = false) (l : List Char) :
    trimR (l ++ [c]) = l ++ [c] := by
  induction l with
  | nil => simp [trimR, h]
  | cons a as ih =>
    show trimR (a :: (as ++ [c])) = a :: (as ++ [c])
    rw [trimR, ih]
    cases has : as ++ [c] with
    | nil => simp at has
    | cons x xs => rfl

theorem trimR_append_ws {c : Char} (h : isWS c = true) (l : List Char) :
    trimR (l ++ [c]) = trimR l := by
  induction l with
  | nil => simp [trimR, h]
  | cons a as ih =>
    show trimR (a :: (as ++ [c])) = trimR (a :: as)
    rw [trimR, ih, trimR]

theorem trimR_eq_nil_iff {l : List Char} : trimR l = [] ↔ l.all isWS = true := by
  induction l with
  | nil => simp [trimR]
  | cons a as ih =>
    rw [trimR]
    cases hr : trimR as with
    | nil =>
      by_cases ha : isWS a
      · simp [ha, ih.mp hr]
      · simp [ha]
    | cons x xs =>
      have : ¬ (as.all isWS = true) := fun hall => by simp [ih.mpr hall] at hr
      simp only [List.all_cons, Bool.and_eq_true]
      constructor
      · intro hx; cases hx
      · rintro ⟨_, h2⟩; exact absurd h2 this

theorem trimR_head? {l : List Char} (h : trimR l ≠ []) : (trimR l).head? = l.head? := by
  cases l with
  | nil => simp [trimR] at h
  | cons a as =>
    rw [trimR] at h ⊢
    cases hr : trimR as with
    | nil =>
      rw [hr] at h
      by_cases ha : isWS a
      · simp [ha] at h
      · simp [ha]
    | cons x xs => rfl

theorem trimR_getLast_not_ws {l : List Char} (h : trimR l ≠ []) :
    ∃ z, (trimR l).getLast? = some z ∧ isWS z = false := by
  induction l with
  | nil => simp [trimR] at h
  | cons a as ih =>
    rw [trimR] at h ⊢
    cases hr : trimR as with
    | nil =>
      rw [hr] at h
      by_cases ha : isWS a
      · simp [ha] at h
      · refine ⟨a, by simp [ha], by simpa using ha⟩
    | cons x xs =>
      rcases ih (by simp [hr]) with ⟨z, hz1, hz2⟩
      rw [hr] at hz1
      exact ⟨z, by rw [List.getLast?_cons_cons]; exact hz1, hz2⟩

theorem trimR_idem (l : List Char) : trimR (trimR l) = trimR l := by
  by_cases h : trimR l = []
  · rw [h]; rfl
  · rcases trimR_getLast_not_ws h with ⟨z, hz1, hz2⟩
    have : trimR l = (trimR l).dropLast ++ [z] := by
      conv_lhs => rw [← List.dropLast_append_getLast h]
      congr 1
      simp [List.getLast?_eq_getLast _ h] at hz1
      simp [hz1]
    rw [this] at hz1 ⊢
    rw [trimR_append_not_ws hz2]

theorem blankL_iff {l : List Char} : blankL l = true ↔ l.all isWS = true := by
  have h1 : blankL l = true ↔ trimL l = [] := by
    simp [blankL, List.isEmpty_iff]
  rw [h1]
  unfold trimL
  rw [trimR_eq_nil_iff]
  constructor
  · intro h
    cases hf : trimF l with
    | nil => exact trimF_eq_nil_iff.mp hf
    | cons c cs =>
      rw [hf] at h
      have := trimF_head_not_ws hf
      simp [this] at h
  · intro h
    rw [trimF_eq_nil_iff.mpr h]
    rfl

theorem blankL_nil : blankL ([] : List Char) = true := by decide

theorem blankL_cons_not_ws {c : Char} (h : isWS c = false) (r : List Char) :
    blankL (c :: r) = false := by
  rw [← Bool.not_eq_true, blankL_iff]
  simp [h]

theorem headIs_hash_not_blank {l : List Char} (h : headIs '#' l = true) :
    blankL l = false := by
  cases l with
  | nil => simp [headIs] at h
  | cons a r =>
    have ha : a = '#' := by simpa [headIs] using h
    subst ha
    exact blankL_cons_not_ws (by decide) r

theorem blank_not_headIs_hash {b : List Char} (h : blankL b = true) :
    headIs '#' b = false := by
  cases b with
  | nil => rfl
  | cons a r =>
    have := blankL_iff.mp h
    simp only [List.all_cons, Bool.and_eq_true] at this
    have ha : isWS a = true := this.1
    by_cases hh : a = '#'
    · subst hh; simp [isWS] at ha
    · simp [headIs, hh]

theorem trimL_head_not_ws {l r : List Char} {c : Char} (h : trimL l = c :: r) :
    isWS c = false := by
  have hne : trimL l ≠ [] := by simp [h]
  have hh := trimR_head? (l := trimF l) hne
  rw [show trimR (trimF l) = trimL l from rfl, h] at hh
  cases hf : trimF l with
  | nil => rw [hf] at hh; simp at hh
  | cons x xs =>
    rw [hf] at hh
    simp only [List.head?_cons, Option.some.injEq] at hh
    subst hh
    exact trimF_head_not_ws hf

theorem trimL_getLast_not_ws {l : List Char} (h : trimL l ≠ []) :
    ∃ z, (trimL l).getLast? = some z ∧ isWS z = false :=
  trimR_getLast_not_ws (l := trimF l) h

theorem trimL_idem (l : List Char) : trimL (trimL l) = trimL l := by
  cases hl : trimL l with
  | nil => rfl
  | cons c cs =>
    have hc := trimL_head_not_ws hl
    rw [← hl]
    show trimR (trimF (trimL l)) = trimL l
    rw [hl, trimF_cons_of_not_ws hc, ← hl]
    exact trimR_idem (trimF l)

theorem trimL_eq_self {l : List Char} {c z : Char}
    (hh : l.head? = some c) (hc : isWS c = false)
    (hz : l.getLast? = some z) (hzc : isWS z = false) : trimL l = l := by
  cases l with
  | nil => simp at hh
  | cons a as =>
    have ha : a = c := by simpa using hh
    subst ha
    show trimR (trimF (a :: as)) = a :: as
    rw [trimF_cons_of_not_ws hc]
    have hne : a :: as ≠ [] := by simp
    have : a :: as = (a :: as).dropLast ++ [z] := by
      have hg : (a :: as).getLast hne = z := by
        rw [List.getLast?_eq_getLast _ hne] at hz
        exact Option.some.inj hz
      rw [← hg, List.dropLast_append_getLast hne]
    rw [this, trimR_append_not_ws hzc]

theorem trimL_cons_ws {c : Char} (h : isWS c = true) (l : List Char) :
    trimL (c :: l) = trimL l := by
  show trimR (trimF (c :: l)) = trimR (trimF l)
  rw [trimF_cons_of_ws h]

theorem trimF_append_of_ne_nil {l : List Char} (h : trimF l ≠ []) (m : List Char) :
    trimF (l ++ m) = trimF l ++ m := by
  induction l with
  | nil => simp [trimF] at h
  | cons a as ih =>
    by_cases ha : isWS a
    · rw [trimF_cons_of_ws ha] at h
      show trimF (a :: (as ++ m)) = trimF (a :: as) ++ m
      rw [trimF_cons_of_ws ha, trimF_cons_of_ws ha, ih h]
    · have ha' : isWS a = false := by simpa using ha
      show trimF (a :: (as ++ m)) = trimF (a :: as) ++ m
      rw [trimF_cons_of_not_ws ha', trimF_cons_of_not_ws ha']
      simp

theorem trimL_append_ws_last {c : Char} (h : isWS c = true) (l : List Char) :
    trimL (l ++ [c]) = trimL l := by
  cases hf : trimF l with
  | nil =>
    have hall : l.all isWS = true := trimF_eq_nil_iff.mp hf
    have hall2 : (l ++ [c]).all isWS = true := by simp [List.all_append, hall, h]
    have : trimF (l ++ [c]) = [] := trimF_eq_nil_iff.mpr hall2
    show trimR (trimF (l ++ [c])) = trimR (trimF l)
    rw [this, hf]
  | cons x xs =>
    show trimR (trimF (l ++ [c])) = trimR (trimF l)
    rw [trimF_append_of_ne_nil (by simp [hf]) [c], trimR_append_ws h]

/-! ## Lemmas about line splitting and joining -/

theorem splitL_ne_nil (s : List Char) : splitL s ≠ [] := by
  induction s with
  | nil => simp [splitL]
  | cons c cs ih =>
    rw [splitL]
    by_cases hc : c = '\n'
    · simp [hc]
    · simp only [hc, if_false]
      cases h : splitL cs <;> simp

theorem splitL_cons_newline (cs : List Char) : splitL ('\n' :: cs) = [] :: splitL cs := by
  simp [splitL]

theorem splitL_cons_of_ne {c : Char} (hc : c ≠ '\n') (cs : List Char) :
    ∃ r ls, splitL (c :: cs) = (c :: r) :: ls ∧ splitL cs = r :: ls := by
  cases h : splitL cs with
  | nil => exact absurd h (splitL_ne_nil cs)
  | cons r ls =>
    refine ⟨r, ls, ?_, rfl⟩
    rw [splitL]
    simp only [hc, if_false]
    rw [h]

theorem splitL_no_newline {l : List Char} (h : '\n' ∉ l) : splitL l = [l] := by
  induction l with
  | nil => rfl
  | cons c cs ih =>
    have hc : c ≠ '\n' := by intro hh; exact h (hh ▸ List.mem_cons_self c cs)
    have hcs : '\n' ∉ cs := fun hh => h (List.mem_cons_of_mem c hh)
    rcases splitL_cons_of_ne hc cs with ⟨r, ls, h1, h2⟩
    rw [ih hcs] at h2
    cases h2
    exact h1

theorem splitL_append_newline {l : List Char} (h : '\n' ∉ l) (r : List Char) :
    splitL (l ++ '\n' :: r) = l :: splitL r := by
  induction l with
  | nil => simpa using splitL_cons_newline r
  | cons c cs ih =>
    have hc : c ≠ '\n' := by intro hh; exact h (hh ▸ List.mem_cons_self c cs)
    have hcs : '\n' ∉ cs := fun hh => h (List.mem_cons_of_mem c hh)
    have hrec := ih hcs
    rcases splitL_cons_of_ne hc (cs ++ '\n' :: r) with ⟨r2, ls2, h1, h2⟩
    rw [hrec] at h2
    cases h2
    exact h1

theorem joinL_cons_of_ne_nil {ls : List (List Char)} (h : ls ≠ []) (l : List Char) :
    joinL (l :: ls) = l ++ '\n' :: joinL ls := by
  cases ls with
  | nil => exact absurd rfl h
  | cons a as => rfl

theorem splitL_joinL {ls : List (List Char)} (hne : ls ≠ [])
    (h : ∀ l ∈ ls, '\n' ∉ l) : splitL (joinL ls) = ls := by
  induction ls with
  | nil => exact absurd rfl hne
  | cons a as ih =>
    cases as with
    | nil =>
      show splitL (joinL [a]) = [a]
      exact splitL_no_newline (h a (List.mem_cons_self a []))
    | cons b bs =>
      rw [joinL_cons_of_ne_nil (by simp) a]
      rw [splitL_append_newline (h a (List.mem_cons_self a _))]
      rw [ih (by simp) (fun l hl => h l (List.mem_cons_of_mem a hl))]

theorem mem_splitL_no_newline {s : List Char} : ∀ x ∈ splitL s, '\n' ∉ x := by
  induction s with
  | nil => intro x hx; simp [splitL] at hx; simp [hx]
  | cons c cs ih =>
    by_cases hc : c = '\n'
    · subst hc
      rw [splitL_cons_newline]
      intro x hx
      rcases List.mem_cons.mp hx with rfl | hx2
      · simp
      · exact ih x hx2
    · rcases splitL_cons_of_ne hc cs with ⟨r, ls, h1, h2⟩
      rw [h1]
      intro x hx
      rcases List.mem_cons.mp hx with rfl | hx2
      · intro hmem
        rcases List.mem_cons.mp hmem with h3 | h3
        · exact hc h3.symm
        · exact ih r (h2 ▸ List.mem_cons_self r ls) h3
      · exact ih x (h2 ▸ List.mem_cons_of_mem r hx2)

theorem getLast?_cons_of_ne_nil {α : Type} {l : List α} (a : α) (h : l ≠ []) :
    (a :: l).getLast? = l.getLast? := by
  cases l with
  | nil => exact absurd rfl h
  | cons b bs => exact List.getLast?_cons_cons

theorem splitL_getLast {s : List Char} {z : Char}
    (hz : s.getLast? = some z) (hne : z ≠ '\n') :
    ∃ l, (splitL s).getLast? = some l ∧ l ≠ [] ∧ l.getLast? = some z := by
  induction s with
  | nil => simp at hz
  | cons c cs ih =>
    cases cs with
    | nil =>
      have hc : c = z := by simpa using hz
      subst hc
      have hcn : c ≠ '\n' := hne
      rcases splitL_cons_of_ne hcn [] with ⟨r, ls, h1, h2⟩
      have : r = [] ∧ ls = [] := by
        have : splitL ([] : List Char) = [[]] := rfl
        rw [this] at h2
        exact ⟨(List.cons.inj h2.symm).1.symm ▸ rfl, by
          cases h2; rfl⟩
      rcases this with ⟨hr, hls⟩
      subst hr; subst hls
      rw [h1]
      exact ⟨[c], rfl, by simp, rfl⟩
    | cons d ds =>
      have hz2 : (d :: ds).getLast? = some z := by
        rw [← hz]
        exact (getLast?_cons_of_ne_nil c (by simp)).symm
      rcases ih hz2 with ⟨l, hl1, hl2, hl3⟩
      by_cases hc : c = '\n'
      · subst hc
        rw [splitL_cons_newline]
        refine ⟨l, ?_, hl2, hl3⟩
        rw [getLast?_cons_of_ne_nil _ (splitL_ne_nil (d :: ds))]
        exact hl1
      · rcases splitL_cons_of_ne hc (d :: ds) with ⟨r, ls, h1, h2⟩
        rw [h1]
        cases ls with
        | nil =>
          rw [h2] at hl1
          have hlr : r = l := by simpa using hl1
          subst hlr
          refine ⟨c :: r, rfl, by simp, ?_⟩
          rw [getLast?_cons_of_ne_nil c hl2]
          exact hl3
        | cons e es =>
          refine ⟨l, ?_, hl2, hl3⟩
          rw [getLast?_cons_of_ne_nil _ (by simp)]
          rw [h2] at hl1
          rw [getLast?_cons_of_ne_nil _ (by simp)] at hl1
          exact hl1

theorem joinL_head? {l : List Char} (hl : l ≠ []) (ls : List (List Char)) :
    (joinL (l :: ls)).head? = l.head? := by
  cases ls with
  | nil => rfl
  | cons a as =>
    rw [joinL_cons_of_ne_nil (by simp) l]
    cases l with
    | nil => exact absurd rfl hl
    | cons x xs => rfl

theorem joinL_ne_nil {ls : List (List Char)} {l : List Char}
    (h : ls.getLast? = some l) (hl : l ≠ []) : joinL ls ≠ [] := by
  cases ls with
  | nil => simp at h
  | cons a as =>
    cases as with
    | nil =>
      have : a = l := by simpa using h
      subst this
      simpa [joinL] using hl
    | cons b bs =>
      rw [joinL_cons_of_ne_nil (by simp) a]
      simp

theorem joinL_getLast? {ls : List (List Char)} {l : List Char}
    (h : ls.getLast? = some l) (hl : l ≠ []) :
    (joinL ls).getLast? = l.getLast? := by
  induction ls with
  | nil => simp at h
  | cons a as ih =>
    cases as with
    | nil =>
      have : a = l := by simpa using h
      subst this
      rfl
    | cons b bs =>
      have h2 : (b :: bs).getLast? = some l := by
        rw [← h]
        exact (getLast?_cons_of_ne_nil a (by simp)).symm
      rw [joinL_cons_of_ne_nil (by simp) a]
      rw [List.getLast?_append]
      rw [getLast?_cons_of_ne_nil '\n' (joinL_ne_nil h2 hl)]
      rw [ih h2]
      cases hll : l.getLast? with
      | none => simp [List.getLast?_eq_none_iff] at hll; exact absurd hll hl
      | some zz => rfl

/-! ## Lemmas about the formatter body -/

theorem fmtGo_nil (p : Option (List Char)) : fmtGo p [] = [] := rfl

theorem fmtGo_cons (p : Option (List Char)) (l : List Char) (ls : List (List Char)) :
    fmtGo p (l :: ls) = fmtChunk p l ++ fmtGo (some l) ls := rfl

theorem fmtChunk_blank {l : List Char} (h : blankL l = true) (p : Option (List Char)) :
    fmtChunk p l = [] := by
  simp [fmtChunk, h]

theorem fmtChunk_cases {l : List Char} (h : blankL l = false) (p : Option (List Char)) :
    fmtChunk p l = [l] ∨ fmtChunk p l = [[], l] := by
  rw [fmtChunk, h]
  simp only [Bool.false_eq_true, if_false]
  split
  · right; rfl
  · split
    · left; rfl
    · right; rfl

/-- The blank-insertion decision of the flatMap, as a Boolean. -/
def insertBlank (prev : Option (List Char)) (line : List Char) : Bool :=
  (headIs '#' line && !prevIsComment prev) ||
    !(prev.isNone || headIs ' ' line || headIs '#' line || prevIsComment prev)

theorem fmtChunk_eq_of_not_blank {l : List Char} (hb : blankL l = false)
    (p : Option (List Char)) :
    fmtChunk p l = if insertBlank p l then [[], l] else [l] := by
  cases h1 : headIs '#' l <;> cases h2 : prevIsComment p <;>
    cases h3 : p.isNone <;> cases h4 : headIs ' ' l <;>
      simp [fmtChunk, insertBlank, hb, h1, h2, h3, h4]

theorem fmtChunk_insert_stable {l : List Char} {p : Option (List Char)}
    (hb : blankL l = false) (h : fmtChunk p l = [[], l]) :
    fmtChunk (some []) l = [[], l] := by
  rw [fmtChunk_eq_of_not_blank hb] at h
  rw [fmtChunk_eq_of_not_blank hb]
  have hins : insertBlank p l = true := by
    by_contra hc
    have : insertBlank p l = false := by revert hc; cases insertBlank p l <;> simp
    rw [this] at h
    simp at h
  rw [if_pos hins] at h
  have hpc : prevIsComment (some ([] : List Char)) = false := rfl
  cases hh : headIs '#' l <;> cases hsp : headIs ' ' l <;>
    cases hq : prevIsComment p <;> cases hn : p.isNone <;>
      simp_all [insertBlank, hpc]

theorem fmtChunk_keep_of_blank_prev {b l : List Char}
    (hbb : blankL b = true) (h : fmtChunk (some b) l = [l]) (q : Option (List Char)) :
    fmtChunk q l = [l] := by
  have hb : blankL l = false := by
    by_contra hc
    have : blankL l = true := by revert hc; cases blankL l <;> simp
    rw [fmtChunk_blank this] at h
    cases h
  have hpc : prevIsComment (some b) = false := by
    simp [prevIsComment, blank_not_headIs_hash hbb]
  rw [fmtChunk_eq_of_not_blank hb] at h
  rw [fmtChunk_eq_of_not_blank hb]
  have hins : insertBlank (some b) l = false := by
    by_contra hc
    have : insertBlank (some b) l = true := by revert hc; cases insertBlank (some b) l <;> simp
    rw [this] at h
    simp at h
  cases hh : headIs '#' l <;> cases hsp : headIs ' ' l <;>
    cases hq2 : prevIsComment q <;> cases hn : q.isNone <;>
      simp_all [insertBlank, hpc]

/-- Core stability: re-running the formatter body over its own output changes
nothing, provided the second pass starts from the same previous line, or the
first pass previous line was blank (a dropped line). -/
theorem fmtGo_fmtGo (L : List (List Char)) :
    ∀ (p q : Option (List Char)),
      (q = p ∨ ∃ b, p = some b ∧ blankL b = true) →
      fmtGo q (fmtGo p L) = fmtGo p L := by
  induction L with
  | nil => intro p q _; rfl
  | cons l L ih =>
    intro p q hinv
    by_cases hb : blankL l = true
    · rw [fmtGo_cons, fmtChunk_blank hb, List.nil_append]
      exact ih (some l) q (Or.inr ⟨l, rfl, hb⟩)
    · have hb2 : blankL l = false := by revert hb; cases blankL l <;> simp
      rcases fmtChunk_cases hb2 p with h1 | h2
      · have hql : fmtChunk q l = [l] := by
          rcases hinv with rfl | ⟨b, rfl, hbb⟩
          · exact h1
          · exact fmtChunk_keep_of_blank_prev hbb h1 q
        rw [fmtGo_cons, h1]
        show fmtGo q (l :: fmtGo (some l) L) = l :: fmtGo (some l) L
        rw [fmtGo_cons, hql, ih (some l) (some l) (Or.inl rfl)]
        rfl
      · have hq2 : fmtChunk (some []) l = [[], l] := fmtChunk_insert_stable hb2 h2
        rw [fmtGo_cons, h2]
        show fmtGo q ([] :: l :: fmtGo (some l) L) = [] :: l :: fmtGo (some l) L
        rw [fmtGo_cons, fmtChunk_blank blankL_nil q, List.nil_append,
          fmtGo_cons, hq2, ih (some l) (some l) (Or.inl rfl)]
        rfl

/-- Every element of the formatter body output is either an inserted blank
line or a non-blank input line. -/
theorem fmtGo_elems {L : List (List Char)} {p : Option (List Char)} :
    ∀ x ∈ fmtGo p L, x = [] ∨ (x ∈ L ∧ blankL x = false) := by
  induction L generalizing p with
  | nil => intro x hx; simp [fmtGo_nil] at hx
  | cons l L ih =>
    intro x hx
    rw [fmtGo_cons] at hx
    rcases List.mem_append.mp hx with hx1 | hx2
    · by_cases hb : blankL l = true
      · rw [fmtChunk_blank hb] at hx1; simp at hx1
      · have hb2 : blankL l = false := by revert hb; cases blankL l <;> simp
        rcases fmtChunk_cases hb2 p with h1 | h2
        · rw [h1] at hx1
          rcases List.mem_singleton.mp hx1 with rfl
          exact Or.inr ⟨List.mem_cons_self x L, hb2⟩
        · rw [h2] at hx1
          rcases List.mem_cons.mp hx1 with rfl | hx3
          · exact Or.inl rfl
          · rcases List.mem_singleton.mp hx3 with rfl
            exact Or.inr ⟨List.mem_cons_self x L, hb2⟩
    · rcases ih x hx2 with h | ⟨h1, h2⟩
      · exact Or.inl h
      · exact Or.inr ⟨List.mem_cons_of_mem l h1, h2⟩

theorem fmtGo_ne_nil {L : List (List Char)} {l : List Char}
    (hl : l ∈ L) (hb : blankL l = false) (p : Option (List Char)) :
    fmtGo p L ≠ [] := by
  induction L generalizing p with
  | nil => simp at hl
  | cons a L ih =>
    rw [fmtGo_cons]
    rcases List.mem_cons.mp hl with rfl | hmem
    · rcases fmtChunk_cases hb p with h1 | h1 <;> simp [h1]
    · intro hcontra
      rcases List.append_eq_nil.mp hcontra with ⟨_, h2⟩
      exact ih hmem (some a) h2

theorem fmtGo_getLast {L : List (List Char)} {z : List Char}
    (hz : L.getLast? = some z) (hb : blankL z = false) (p : Option (List Char)) :
    (fmtGo p L).getLast? = some z := by
  induction L generalizing p with
  | nil => simp at hz
  | cons a L ih =>
    cases L with
    | nil =>
      have : a = z := by simpa using hz
      subst this
      rw [fmtGo_cons, fmtGo_nil, List.append_nil]
      rcases fmtChunk_cases hb p with h1 | h1 <;> simp [h1]
    | cons b bs =>
      have hz2 : (b :: bs).getLast? = some z := by
        rw [← hz]; exact (getLast?_cons_of_ne_nil a (by simp)).symm
      have hzmem : z ∈ b :: bs := by
        have := List.getLast?_eq_getLast (b :: bs) (by simp)
        rw [this] at hz2
        have := Option.some.inj hz2
        rw [← this]
        exact List.getLast_mem _
      rw [fmtGo_cons, List.getLast?_append]
      rw [ih hz2 (some a)]
      rfl

/-- Drop one leading inserted blank line (what the final trim does to the
joined body when the first line got a blank inserted before it). -/
def dropLB : List (List Char) → List (List Char)
  | [] => []
  | x :: xs => if x = [] then xs else x :: xs

theorem blankL_false_of_getLast {l : List Char} {z : Char}
    (h : l.getLast? = some z) (hz : isWS z = false) : blankL l = false := by
  rw [← Bool.not_eq_true, blankL_iff]
  intro hall
  have hmem : z ∈ l := by
    cases l with
    | nil => simp at h
    | cons a as =>
      have hne : a :: as ≠ [] := by simp
      rw [List.getLast?_eq_getLast _ hne] at h
      rw [← Option.some.inj h]
      exact List.getLast_mem hne
  have := List.all_eq_true.mp hall z hmem
  rw [this] at hz
  cases hz

theorem isWS_newline : isWS '\n' = true := by decide

/-- The shape of the formatter output on input whose first line is non-blank:
the body is the first line followed by the rest, possibly preceded by one
inserted blank. -/
theorem fmtGo_none_shape {l : List Char} (hb : blankL l = false) (ls : List (List Char)) :
    fmtGo none (l :: ls) = l :: fmtGo (some l) ls ∨
    fmtGo none (l :: ls) = [] :: l :: fmtGo (some l) ls := by
  rcases fmtChunk_cases hb none with h1 | h1 <;> rw [fmtGo_cons, h1] <;> simp

/-- Central structural lemma for C6 and C9: for `T = trimL s` nonempty, the
formatter body after the final trim is exactly the join of `dropLB` of the
`fmtGo` output, the joined body is itself trimmed, its lines are exactly
`dropLB` of the `fmtGo` output, and a second `fmtGo` pass reproduces the
first. -/
theorem formatL_body {s : List Char} {c : Char} {cs : List Char}
    (hT : trimL s = c :: cs) :
    trimL (joinL (fmtGo none (splitL (trimL s)))) =
        joinL (dropLB (fmtGo none (splitL (trimL s))))
    ∧ trimL (joinL (dropLB (fmtGo none (splitL (trimL s))))) =
        joinL (dropLB (fmtGo none (splitL (trimL s))))
    ∧ splitL (joinL (dropLB (fmtGo none (splitL (trimL s))))) =
        dropLB (fmtGo none (splitL (trimL s)))
    ∧ fmtGo none (dropLB (fmtGo none (splitL (trimL s)))) =
        fmtGo none (splitL (trimL s)) := by
  have hc : isWS c = false := trimL_head_not_ws hT
  have hcn : c ≠ '\n' := by
    intro h; rw [h] at hc; rw [isWS_newline] at hc; cases hc
  rcases splitL_cons_of_ne hcn cs with ⟨r, ls, hL, _⟩
  rw [hT, hL]
  have hbl0 : blankL (c :: r) = false := blankL_cons_not_ws hc r
  -- getLast facts
  have hTne : trimL s ≠ [] := by simp [hT]
  rcases trimL_getLast_not_ws hTne with ⟨z, hz1, hz2⟩
  rw [hT] at hz1
  have hzn : z ≠ '\n' := by
    intro h; rw [h] at hz2; rw [isWS_newline] at hz2; cases hz2
  rcases splitL_getLast (s := c :: cs) hz1 hzn with ⟨lz, hlz1, hlz2, hlz3⟩
  rw [hL] at hlz1
  have hlzb : blankL lz = false := blankL_false_of_getLast hlz3 hz2
  have houtLast : (fmtGo none ((c :: r) :: ls)).getLast? = some lz :=
    fmtGo_getLast hlz1 hlzb none
  -- no-newline facts
  have hnoNL : ∀ x ∈ fmtGo none ((c :: r) :: ls), '\n' ∉ x := by
    intro x hx
    rcases fmtGo_elems x hx with rfl | ⟨hmem, _⟩
    · simp
    · rw [← hL] at hmem
      exact mem_splitL_no_newline x hmem
  rcases fmtGo_none_shape hbl0 ls with hsh | hsh <;> rw [hsh]
  · -- no inserted blank before the first line
    have hdrop : dropLB ((c :: r) :: fmtGo (some (c :: r)) ls) =
        (c :: r) :: fmtGo (some (c :: r)) ls := by
      simp [dropLB]
    rw [hdrop]
    have hlast2 : ((c :: r) :: fmtGo (some (c :: r)) ls).getLast? = some lz := by
      rw [← hsh]; exact houtLast
    have hjh : (joinL ((c :: r) :: fmtGo (some (c :: r)) ls)).head? = some c := by
      rw [joinL_head? (by simp)]; rfl
    have hjl : (joinL ((c :: r) :: fmtGo (some (c :: r)) ls)).getLast? = some z := by
      rw [joinL_getLast? hlast2 hlz2]; exact hlz3
    have htr : trimL (joinL ((c :: r) :: fmtGo (some (c :: r)) ls)) =
        joinL ((c :: r) :: fmtGo (some (c :: r)) ls) :=
      trimL_eq_self hjh hc hjl hz2
    refine ⟨htr, htr, ?_, ?_⟩
    · refine splitL_joinL (by simp) ?_
      intro x hx
      rw [← hsh] at hx
      exact hnoNL x hx
    · rw [← hsh]
      rw [hsh] at houtLast ⊢
      have := fmtGo_fmtGo ((c :: r) :: ls) none none (Or.inl rfl)
      rw [hsh] at this
      exact this
  · -- an inserted blank precedes the first line
    have hdrop : dropLB ([] :: (c :: r) :: fmtGo (some (c :: r)) ls) =
        (c :: r) :: fmtGo (some (c :: r)) ls := by
      simp [dropLB]
    rw [hdrop]
    have hlast2 : ((c :: r) :: fmtGo (some (c :: r)) ls).getLast? = some lz := by
      have := houtLast
      rw [hsh] at this
      rw [← getLast?_cons_of_ne_nil ([] : List Char) (l := (c :: r) :: fmtGo (some (c :: r)) ls) (by simp)]
      exact this
    have hjh : (joinL ((c :: r) :: fmtGo (some (c :: r)) ls)).head? = some c := by
      rw [joinL_head? (by simp)]; rfl
    have hjl : (joinL ((c :: r) :: fmtGo (some (c :: r)) ls)).getLast? = some z := by
      rw [joinL_getLast? hlast2 hlz2]; exact hlz3
    have htr2 : trimL (joinL ((c :: r) :: fmtGo (some (c :: r)) ls)) =
        joinL ((c :: r) :: fmtGo (some (c :: r)) ls) :=
      trimL_eq_self hjh hc hjl hz2
    have hjoin : joinL ([] :: (c :: r) :: fmtGo (some (c :: r)) ls) =
        '\n' :: joinL ((c :: r) :: fmtGo (some (c :: r)) ls) := by
      rw [joinL_cons_of_ne_nil (by simp)]
      rfl
    refine ⟨?_, htr2, ?_, ?_⟩
    · rw [hjoin, trimL_cons_ws isWS_newline, htr2]
    · refine splitL_joinL (by simp) ?_
      intro x hx
      refine hnoNL x ?_
      rw [hsh]
      exact List.mem_cons_of_mem [] hx
    · -- second pass over the dropped-blank body reproduces the inserted blank
      have hchunk : fmtChunk none (c :: r) = [[], c :: r] := by
        rcases fmtChunk_cases hbl0 none with h1 | h1
        · exfalso
          rw [fmtGo_cons, h1] at hsh
          simp at hsh
        · exact h1
      rw [fmtGo_cons, hchunk]
      rw [fmtGo_fmtGo ls (some (c :: r)) (some (c :: r)) (Or.inl rfl)]
      rfl

theorem formatL_idem (s : List Char) : formatL (formatL s) = formatL s := by
  cases hT : trimL s with
  | nil =>
    have h1 : formatL s = ['\n'] := by
      unfold formatL
      rw [hT]
      decide
    rw [h1]
    decide
  | cons c cs =>
    obtain ⟨hB1, hB2, hB3, hB4⟩ := formatL_body hT
    have hfs : formatL s = joinL (dropLB (fmtGo none (splitL (trimL s)))) ++ ['\n'] := by
      unfold formatL
      rw [hB1]
    rw [hfs]
    unfold formatL
    rw [trimL_append_ws_last isWS_newline, hB2, hB3, hB4, hB1]

/-- C6: the blank-line formatter is idempotent: for every input string,
applying `formatConfig` twice yields the same text as applying it once. -/
theorem formatConfig_idempotent (s : String) :
    formatConfig (formatConfig s) = formatConfig s := by
  show (⟨formatL (formatConfig s).data⟩ : String) = (⟨formatL s.data⟩ : String)
  have hdata : (formatConfig s).data = formatL s.data := rfl
  rw [hdata, formatL_idem]

/-! ## Shape of every persisted config text (claim C9) -/

def blankStr (s : String) : Bool := blankL s.data

/-- No two adjacent lines are both blank. -/
def noConsecBlank : List String → Bool
  | [] => true
  | [_] => true
  | a :: b :: rest => !(blankStr a && blankStr b) && noConsecBlank (b :: rest)

def noConsecBlankL : List (List Char) → Bool
  | [] => true
  | [_] => true
  | a :: b :: rest => !(blankL a && blankL b) && noConsecBlankL (b :: rest)

theorem noConsecBlank_map_mk (ls : List (List Char)) :
    noConsecBlank (ls.map (⟨·⟩)) = noConsecBlankL ls := by
  induction ls with
  | nil => rfl
  | cons a ls ih =>
    cases ls with
    | nil => rfl
    | cons b bs =>
      show (!(blankStr ⟨a⟩ && blankStr ⟨b⟩) && noConsecBlank ((b :: bs).map (⟨·⟩))) = _
      rw [ih]
      rfl

theorem noConsecBlankL_cons_of_not_blank {a : List Char} (h : blankL a = false)
    (rest : List (List Char)) :
    noConsecBlankL (a :: rest) = noConsecBlankL rest := by
  cases rest with
  | nil => rfl
  | cons b bs => simp [noConsecBlankL, h]

theorem noConsecBlankL_cons_cons_of_not_blank {b : List Char} (h : blankL b = false)
    (a : List Char) (rest : List (List Char)) :
    noConsecBlankL (a :: b :: rest) = noConsecBlankL (b :: rest) := by
  simp [noConsecBlankL, h]

theorem noConsecBlankL_tail {a : List Char} {rest : List (List Char)}
    (h : noConsecBlankL (a :: rest) = true) : noConsecBlankL rest = true := by
  cases rest with
  | nil => rfl
  | cons b bs =>
    simp only [noConsecBlankL, Bool.and_eq_true] at h
    exact h.2

theorem noConsecBlankL_fmtGo (L : List (List Char)) :
    ∀ p, noConsecBlankL (fmtGo p L) = true := by
  induction L with
  | nil => intro p; rfl
  | cons l L ih =>
    intro p
    by_cases hb : blankL l = true
    · rw [fmtGo_cons, fmtChunk_blank hb, List.nil_append]
      exact ih (some l)
    · have hb2 : blankL l = false := by revert hb; cases blankL l <;> simp
      rcases fmtChunk_cases hb2 p with h1 | h1 <;> rw [fmtGo_cons, h1]
      · show noConsecBlankL (l :: fmtGo (some l) L) = true
        rw [noConsecBlankL_cons_of_not_blank hb2]
        exact ih (some l)
      · show noConsecBlankL ([] :: l :: fmtGo (some l) L) = true
        rw [noConsecBlankL_cons_cons_of_not_blank hb2,
          noConsecBlankL_cons_of_not_blank hb2]
        exact ih (some l)

theorem noConsecBlankL_dropLB {ls : List (List Char)}
    (h : noConsecBlankL ls = true) : noConsecBlankL (dropLB ls) = true := by
  cases ls with
  | nil => rfl
  | cons a rest =>
    show noConsecBlankL (if a = [] then rest else a :: rest) = true
    split
    · exact noConsecBlankL_tail h
    · exact h

theorem trimL_formatL (s : List Char) : trimL (formatL s) = trimL (joinL (fmtGo none (splitL (trimL s)))) := by
  unfold formatL
  rw [trimL_append_ws_last isWS_newline, trimL_idem]

/-- C9: every config persistence goes through `saveConfig`, which writes
exactly `formatConfig` of the given text; and every such text is trimmed,
terminated by exactly one trailing newline, and contains no two consecutive
blank lines. -/
theorem saveConfig_output_normalized (path text : String) (w : World) :
    (saveConfigM path text w).2.writeLog = w.writeLog ++ [(path, formatConfig text)]
    ∧ formatConfig text = jsTrim (formatConfig text) ++ "\n"
    ∧ noConsecBlank (jsSplitNL (jsTrim (formatConfig text))) = true := by
  refine ⟨rfl, ?_, ?_⟩
  · show String.mk (formatL text.data) =
      String.mk (trimL (formatL text.data) ++ ('\n' :: []))
    rw [trimL_formatL]
    rfl
  · show noConsecBlank ((splitL (trimL (formatL text.data))).map (⟨·⟩)) = true
    rw [noConsecBlank_map_mk, trimL_formatL]
    cases hT : trimL text.data with
    | nil =>
      decide
    | cons c cs =>
      obtain ⟨hB1, _, hB3, _⟩ := formatL_body hT
      rw [hT] at hB1 hB3
      rw [hB1, hB3]
      exact noConsecBlankL_dropLB (noConsecBlankL_fmtGo _ none)

/-! ## World-effect lemmas for the loader (claims C5, C7, C3) -/

theorem worldStep_effects {w w' : World} {path : String}
    (h : w' = w ∨ ∃ t, w' = writeFileM path (formatConfig t) w) :
    w'.readLog = w.readLog ∧
    w'.writeLog.length ≥ w.writeLog.length ∧
    ∀ pc ∈ w'.writeLog, pc ∈ w.writeLog ∨ pc.1 = path := by
  rcases h with rfl | ⟨t, rfl⟩
  · exact ⟨rfl, Nat.le_refl _, fun pc hpc => Or.inl hpc⟩
  · refine ⟨rfl, by simp [writeFileM], ?_⟩
    intro pc hpc
    rcases List.mem_append.mp hpc with h1 | h2
    · exact Or.inl h1
    · right
      rcases List.mem_singleton.mp h2 with rfl
      rfl

theorem migrateConfigM_world {Cfg : Type} (opts : InitConfigOptions Cfg)
    (p cs : String) (config : Cfg) (w : World) :
    (migrateConfigM opts p cs config w).2 = w ∨
    ∃ t, (migrateConfigM opts p cs config w).2 = writeFileM p (formatConfig t) w := by
  rw [migrateConfigM]
  split
  · exact Or.inl rfl
  · split
    · split
      · exact Or.inl rfl
      · split
        · exact Or.inr ⟨_, rfl⟩
        · exact Or.inl rfl
    · split
      · exact Or.inr ⟨_, rfl⟩
      · exact Or.inl rfl

theorem validateAndMigrateM_world {Cfg : Type} (opts : InitConfigOptions Cfg)
    (p cs : String) (w : World) :
    (validateAndMigrateM opts p cs w).2 = w ∨
    ∃ t, (validateAndMigrateM opts p cs w).2 = writeFileM p (formatConfig t) w := by
  rw [validateAndMigrateM]
  split
  · exact Or.inl rfl
  · split
    · exact migrateConfigM_world opts p cs _ w
    · split <;> exact Or.inl rfl

theorem schemaCommentPhase_world (p fc comment : String) (w : World) :
    (schemaCommentPhase p fc comment w).2 = w ∨
    ∃ t, (schemaCommentPhase p fc comment w).2 = writeFileM p (formatConfig t) w := by
  rw [schemaCommentPhase]
  split
  · exact Or.inr ⟨_, rfl⟩
  · exact Or.inl rfl

/-- The handle produced by the post-read phase carries the path it was given,
its reads are unchanged, and all of its writes target that path. -/
theorem afterRead_effects {Cfg : Type} (opts : InitConfigOptions Cfg)
    (path fc comment : String) (w : World) :
    (afterRead opts path fc comment w).2.readLog = w.readLog
    ∧ (∀ pc ∈ (afterRead opts path fc comment w).2.writeLog,
        pc ∈ w.writeLog ∨ pc.1 = path)
    ∧ (∀ h, (afterRead opts path fc comment w).1 = .ok (some h) → h.path = path) := by
  rw [afterRead]
  obtain ⟨hr1, _, hw1⟩ := worldStep_effects (schemaCommentPhase_world path fc comment w)
  obtain ⟨hr2, _, hw2⟩ := worldStep_effects
    (validateAndMigrateM_world opts path (schemaCommentPhase path fc comment w).1
      (schemaCommentPhase path fc comment w).2)
  refine ⟨?_, ?_, ?_⟩
  · split
    · next m w2 heq =>
      have : w2 = (validateAndMigrateM opts path (schemaCommentPhase path fc comment w).1
          (schemaCommentPhase path fc comment w).2).2 := by rw [heq]
      rw [this] at *
      rw [hr2, hr1]
    · next latest cs2 w2 heq =>
      have : w2 = (validateAndMigrateM opts path (schemaCommentPhase path fc comment w).1
          (schemaCommentPhase path fc comment w).2).2 := by rw [heq]
      rw [this] at *
      rw [hr2, hr1]
  · intro pc
    split
    · next m w2 heq =>
      have hw : w2 = (validateAndMigrateM opts path (schemaCommentPhase path fc comment w).1
          (schemaCommentPhase path fc comment w).2).2 := by rw [heq]
      intro hpc
      rw [hw] at hpc
      rcases hw2 pc hpc with h | h
      · exact hw1 pc h
      · exact Or.inr h
    · next latest cs2 w2 heq =>
      have hw : w2 = (validateAndMigrateM opts path (schemaCommentPhase path fc comment w).1
          (schemaCommentPhase path fc comment w).2).2 := by rw [heq]
      intro hpc
      rw [hw] at hpc
      rcases hw2 pc hpc with h | h
      · exact hw1 pc h
      · exact Or.inr h
  · intro h
    split
    · intro hcontra; cases hcontra
    · intro heq
      cases heq
      rfl

/-- Reduction of the loader when the requested file exists. -/
theorem initReadonlyConfig_read_success {Cfg : Type} (opts : InitConfigOptions Cfg)
    (gd : Option String) (w : World) (content : String)
    (hreq : lookupAssoc w.files (requestedConfigPath opts) = some content) :
    initReadonlyConfig opts gd w =
      afterRead opts (requestedConfigPath opts) content
        (schemaPathComment opts.schemaRelPath)
        { w with readLog := w.readLog ++ [requestedConfigPath opts] } := by
  unfold requestedConfigPath at hreq ⊢
  rw [initReadonlyConfig]
  simp only [readFileM]
  rw [hreq]

/-- Reduction of the loader under the extension fallback: the requested file
is unreadable, the sibling-extension file exists. -/
theorem initReadonlyConfig_fallback {Cfg : Type} (opts : InitConfigOptions Cfg)
    (gd : Option String) (w : World) (content : String)
    (hx : jsEndsWith (requestedConfigPath opts) ("." ++ YAML_EXT) = true ∨
          jsEndsWith (requestedConfigPath opts) ("." ++ YML_EXT) = true)
    (hreq : lookupAssoc w.files (requestedConfigPath opts) = none)
    (hsib : lookupAssoc w.files (siblingPath (requestedConfigPath opts)) = some content) :
    initReadonlyConfig opts gd w =
      afterRead opts (siblingPath (requestedConfigPath opts)) content
        (schemaPathComment opts.schemaRelPath)
        { w with readLog := w.readLog ++
            [requestedConfigPath opts, siblingPath (requestedConfigPath opts)] } := by
  unfold requestedConfigPath at hreq hsib hx ⊢
  rw [initReadonlyConfig]
  simp only [readFileM]
  rw [hreq]
  have hcond : (!jsEndsWith ((getConfigPath opts.getConfigOrConfigDirPath
        (opts.name ++ "." ++ YAML_EXT)).1) ("." ++ YAML_EXT) &&
      !jsEndsWith ((getConfigPath opts.getConfigOrConfigDirPath
        (opts.name ++ "." ++ YAML_EXT)).1) ("." ++ YML_EXT) &&
      gd.isSome) = false := by
    rcases hx with h | h <;> rw [h] <;> simp
  rw [hcond]
  simp only [Bool.false_eq_true, if_false]
  rw [hsib]
  simp [List.append_assoc]

/-- C5: when the requested config path (ending in `.yaml` or `.yml`) cannot be
read while the sibling-extension path exists, the loader reads the sibling
file exactly once as a fallback (the read log gains exactly the failed
requested read followed by one sibling read) and thereafter uses the
substituted path as the resolved config path: every write of this load targets
the sibling path, and the returned handle's `$getPath` is the sibling path. -/
theorem loader_extension_fallback {Cfg : Type} (opts : InitConfigOptions Cfg)
    (gd : Option String) (w : World) (content : String)
    (hx : jsEndsWith (requestedConfigPath opts) ("." ++ YAML_EXT) = true ∨
          jsEndsWith (requestedConfigPath opts) ("." ++ YML_EXT) = true)
    (hreq : lookupAssoc w.files (requestedConfigPath opts) = none)
    (hsib : lookupAssoc w.files (siblingPath (requestedConfigPath opts)) = some content) :
    ((initReadonlyConfig opts gd w).2.readLog =
        w.readLog ++ [requestedConfigPath opts, siblingPath (requestedConfigPath opts)])
    ∧ (∀ pc ∈ (initReadonlyConfig opts gd w).2.writeLog,
        pc ∈ w.writeLog ∨ pc.1 = siblingPath (requestedConfigPath opts))
    ∧ (∀ h, (initReadonlyConfig opts gd w).1 = .ok (some h) →
        h.path = siblingPath (requestedConfigPath opts)) := by
  rw [initReadonlyConfig_fallback opts gd w content hx hreq hsib]
  obtain ⟨h1, h2, h3⟩ := afterRead_effects opts (siblingPath (requestedConfigPath opts))
    content (schemaPathComment opts.schemaRelPath)
    { w with readLog := w.readLog ++
        [requestedConfigPath opts, siblingPath (requestedConfigPath opts)] }
  exact ⟨h1, h2, h3⟩

/-- Witness for C5 at a concrete input: `d/foo.yaml` requested, only
`d/foo.yml` exists; the read log records the failed read then exactly one
sibling read. -/
theorem loader_extension_fallback_witness :
    ((initReadonlyConfig
      ({ name := "foo", getConfigOrConfigDirPath := "d", migrations := [],
         validateAllConfigVersions := fun _ => true,
         validateLatestConfig := fun _ => true, validate := none,
         getVersion := fun _ => JsVal.num 5, parse := fun s => s.length,
         yamlDiffPatch := fun s _ _ => s, schemaRelPath := "schemas/foo.json",
         description := none, docsInConfigs := false,
         emptyObj := 0 } : InitConfigOptions Nat)
      none ⟨[("d/foo.yml", "a: 1\n")], [], []⟩).2.readLog =
      ["d/foo.yaml", "d/foo.yml"]) :=
  (loader_extension_fallback
    ({ name := "foo", getConfigOrConfigDirPath := "d", migrations := [],
       validateAllConfigVersions := fun _ => true,
       validateLatestConfig := fun _ => true, validate := none,
       getVersion := fun _ => JsVal.num 5, parse := fun s => s.length,
       yamlDiffPatch := fun s _ _ => s, schemaRelPath := "schemas/foo.json",
       description := none, docsInConfigs := false,
       emptyObj := 0 } : InitConfigOptions Nat)
    none ⟨[("d/foo.yml", "a: 1\n")], [], []⟩ "a: 1\n"
    (Or.inl (by decide)) (by decide) (by decide)).1

/-! ## The schema-comment rewrite (claim C7) -/

theorem afterRead_snd {Cfg : Type} (opts : InitConfigOptions Cfg)
    (path fc comment : String) (w : World) :
    (afterRead opts path fc comment w).2 =
      (validateAndMigrateM opts path (schemaCommentPhase path fc comment w).1
        (schemaCommentPhase path fc comment w).2).2 := by
  rw [afterRead]
  split
  · next m w2 heq => rw [heq]
  · next latest cs2 w2 heq => rw [heq]

theorem schemaCommentPhase_fst (p fc comment : String) (w : World) :
    (schemaCommentPhase p fc comment w).1 = updateSchemaComment comment fc := by
  rw [schemaCommentPhase]
  split <;> rfl

theorem validateAndMigrateM_world_of_not_lt {Cfg : Type} (opts : InitConfigOptions Cfg)
    (p cs : String) (w : World)
    (hnl : jsLtNum (jsToNumber (opts.getVersion (opts.parse cs)))
        opts.migrations.length = false) :
    (validateAndMigrateM opts p cs w).2 = w := by
  rw [validateAndMigrateM]
  split
  · rfl
  · rw [hnl]
    simp only [Bool.false_eq_true, if_false]
    split <;> rfl

theorem splitL_joinL_head {x : List Char} (hx : '\n' ∉ x) (ys : List (List Char)) :
    (splitL (joinL (x :: ys))).head? = some x := by
  cases ys with
  | nil =>
    show (splitL (joinL [x])).head? = some x
    rw [show joinL [x] = x from rfl, splitL_no_newline hx]
    rfl
  | cons y ys =>
    rw [joinL_cons_of_ne_nil (by simp), splitL_append_newline hx]
    rfl

/-- C7 corrected: loading a file whose first line is an outdated
schema-reference comment does not preserve the subsequent lines verbatim; the
rewritten file is the blank-line formatter applied to the corrected text, and
here the formatter inserts a blank line between `a: 1` and `b: 2`. -/
theorem schema_comment_not_verbatim_counterexample :
    (lookupAssoc
      ((initReadonlyConfig
        ({ name := "foo", getConfigOrConfigDirPath := "d/foo.yaml", migrations := [],
           validateAllConfigVersions := fun _ => true,
           validateLatestConfig := fun _ => true, validate := none,
           getVersion := fun _ => JsVal.num 5, parse := fun s => s.length,
           yamlDiffPatch := fun s _ _ => s, schemaRelPath := "schemas/foo.json",
           description := none, docsInConfigs := false,
           emptyObj := 0 } : InitConfigOptions Nat)
        none
        ⟨[("d/foo.yaml", "# yaml-language-server: $schema=old\na: 1\nb: 2\n")], [], []⟩).2.files)
      "d/foo.yaml" =
      some "# yaml-language-server: $schema=schemas/foo.json\na: 1\n\nb: 2\n")
    ∧ ((jsSplitNL "# yaml-language-server: $schema=schemas/foo.json\na: 1\n\nb: 2\n").drop 1 ≠
        (jsSplitNL "# yaml-language-server: $schema=old\na: 1\nb: 2\n").drop 1) := by
  constructor
  · decide
  · decide

/-- C7 amended: loading a file whose first line is an outdated or incorrect
schema-reference comment rewrites the file to
`formatConfig (correct comment :: original subsequent lines, joined and
trimmed)`: exactly one write occurs (assuming the version check routes past
migration), the corrected text has the correct comment as its first line, and
the subsequent lines are preserved only up to the trim and the blank-line
normalization of `formatConfig`, not verbatim. -/
theorem schema_comment_rewrite_formats {Cfg : Type} (opts : InitConfigOptions Cfg)
    (gd : Option String) (w : World) (content : String)
    (hreq : lookupAssoc w.files (requestedConfigPath opts) = some content)
    (hstart : jsStartsWith content schemaPathCommentStart = true)
    (hneq : updateSchemaComment (schemaPathComment opts.schemaRelPath) content ≠ content)
    (hnomig : jsLtNum (jsToNumber (opts.getVersion (opts.parse
        (updateSchemaComment (schemaPathComment opts.schemaRelPath) content))))
        opts.migrations.length = false)
    (hrel : '\n' ∉ opts.schemaRelPath.data) :
    ((initReadonlyConfig opts gd w).2.writeLog =
      w.writeLog ++ [(requestedConfigPath opts,
        formatConfig (updateSchemaComment (schemaPathComment opts.schemaRelPath) content))])
    ∧ updateSchemaComment (schemaPathComment opts.schemaRelPath) content =
        jsTrim (jsJoinNL (schemaPathComment opts.schemaRelPath ::
          (jsSplitNL content).drop 1)) ++ "\n"
    ∧ (jsSplitNL (jsJoinNL (schemaPathComment opts.schemaRelPath ::
        (jsSplitNL content).drop 1))).head? =
        some (schemaPathComment opts.schemaRelPath) := by
  have hnc : '\n' ∉ (schemaPathComment opts.schemaRelPath).data := by
    intro hmem
    have : (schemaPathComment opts.schemaRelPath).data =
        schemaPathCommentStart.data ++ opts.schemaRelPath.data := rfl
    rw [this] at hmem
    rcases List.mem_append.mp hmem with h | h
    · revert h; decide
    · exact hrel h
  refine ⟨?_, ?_, ?_⟩
  · rw [initReadonlyConfig_read_success opts gd w content hreq, afterRead_snd]
    have hphase2 : (schemaCommentPhase (requestedConfigPath opts) content
        (schemaPathComment opts.schemaRelPath)
        { w with readLog := w.readLog ++ [requestedConfigPath opts] }).2 =
        writeFileM (requestedConfigPath opts)
          (formatConfig (updateSchemaComment (schemaPathComment opts.schemaRelPath) content))
          { w with readLog := w.readLog ++ [requestedConfigPath opts] } := by
      rw [schemaCommentPhase, if_pos hneq]
      rfl
    rw [schemaCommentPhase_fst, hphase2, validateAndMigrateM_world_of_not_lt _ _ _ _ hnomig]
    rfl
  · rw [updateSchemaComment, if_pos hstart]
  · have hrepr : jsSplitNL (jsJoinNL (schemaPathComment opts.schemaRelPath ::
        (jsSplitNL content).drop 1)) =
        (splitL (joinL ((schemaPathComment opts.schemaRelPath).data ::
          ((jsSplitNL content).drop 1).map (·.data)))).map
            (fun l => (⟨l⟩ : String)) := rfl
    rw [hrepr, List.head?_map, splitL_joinL_head hnc]
    rfl

/-! ## The instance cache (claim C3) -/

theorem lookupAssoc_setAssoc_self {β : Type} (m : List (String × β)) (k : String) (v : β) :
    lookupAssoc (setAssoc m k v) k = some v := by
  induction m with
  | nil => simp [setAssoc, lookupAssoc]
  | cons kv rest ih =>
    obtain ⟨k2, v2⟩ := kv
    rw [setAssoc]
    split
    · next heq => rw [lookupAssoc, if_pos rfl]
    · next hne => rw [lookupAssoc, if_neg hne, ih]

theorem requestedConfigPath_def {Cfg : Type} (opts : InitConfigOptions Cfg) :
    requestedConfigPath opts =
      (getConfigPath opts.getConfigOrConfigDirPath (opts.name ++ "." ++ YAML_EXT)).1 := rfl

/-- C3 corrected, counterexample: with only `d/foo.yml` on disk and the
logical path resolving to `d/foo.yaml`, the handle is cached under the
resolved `.yml` path while the cache lookup uses the requested `.yaml` path,
so two sequential invocations return two distinct heap references (handle 0
and handle 1), not the same mutable handle. -/
theorem init_cache_fallback_counterexample :
    ((initConfigM
      ({ name := "foo", getConfigOrConfigDirPath := "d", migrations := [],
         validateAllConfigVersions := fun _ => true,
         validateLatestConfig := fun _ => true, validate := none,
         getVersion := fun _ => JsVal.num 5, parse := fun s => s.length,
         yamlDiffPatch := fun s _ _ => s, schemaRelPath := "schemas/foo.json",
         description := none, docsInConfigs := false,
         emptyObj := 0 } : InitConfigOptions Nat)
      none ⟨⟨[("d/foo.yml", "a: 1\n")], [], []⟩, [], []⟩).1 = .ok (some 0))
    ∧ ((initConfigM
      ({ name := "foo", getConfigOrConfigDirPath := "d", migrations := [],
         validateAllConfigVersions := fun _ => true,
         validateLatestConfig := fun _ => true, validate := none,
         getVersion := fun _ => JsVal.num 5, parse := fun s => s.length,
         yamlDiffPatch := fun s _ _ => s, schemaRelPath := "schemas/foo.json",
         description := none, docsInConfigs := false,
         emptyObj := 0 } : InitConfigOptions Nat)
      none
      (initConfigM
        ({ name := "foo", getConfigOrConfigDirPath := "d", migrations := [],
           validateAllConfigVersions := fun _ => true,
           validateLatestConfig := fun _ => true, validate := none,
           getVersion := fun _ => JsVal.num 5, parse := fun s => s.length,
           yamlDiffPatch := fun s _ _ => s, schemaRelPath := "schemas/foo.json",
           description := none, docsInConfigs := false,
           emptyObj := 0 } : InitConfigOptions Nat)
        none ⟨⟨[("d/foo.yml", "a: 1\n")], [], []⟩, [], []⟩).2).1 = .ok (some 1)) := by
  constructor
  · decide
  · decide

/-- C3 amended: two sequential invocations of the init function return the
same mutable handle (the same heap reference, so a mutation through one is
visible through the other) whenever the requested config path itself is
readable, so that no extension fallback occurs and the cache key equals the
resolved path; under the `.yaml` to `.yml` extension fallback the handle is
cached under the substituted path while the lookup uses the requested path,
and sequential invocations return independent handles instead. -/
theorem init_cache_identity {Cfg : Type} (opts : InitConfigOptions Cfg)
    (gd : Option String) (s s' : Session Cfg) (id : Nat)
    (hread : (lookupAssoc s.world.files (requestedConfigPath opts)).isSome = true)
    (h1 : initConfigM opts gd s = (.ok (some id), s')) :
    initConfigM opts gd s' = (.ok (some id), s') := by
  obtain ⟨content, hc⟩ := Option.isSome_iff_exists.mp hread
  rw [initConfigM] at h1 ⊢
  rw [← requestedConfigPath_def opts] at h1 ⊢
  cases hcache : lookupAssoc s.cache (requestedConfigPath opts) with
  | some j =>
    rw [hcache] at h1
    have hid : j = id := by
      have := congrArg Prod.fst h1
      simpa using this
    have hs : s = s' := congrArg Prod.snd h1
    subst hs
    rw [hcache, hid]
  | none =>
    rw [hcache] at h1
    rw [initReadonlyConfig_read_success opts gd s.world content hc] at h1
    rcases haf : afterRead opts (requestedConfigPath opts) content
        (schemaPathComment opts.schemaRelPath)
        { s.world with readLog := s.world.readLog ++ [requestedConfigPath opts] } with ⟨res, w2⟩
    rw [haf] at h1
    cases res with
    | fatal m =>
      have hfst := congrArg Prod.fst h1
      simp at hfst
    | ok o =>
      cases o with
      | none =>
        have hfst := congrArg Prod.fst h1
        simp at hfst
      | some ro =>
        have h1e : ((Fatal.ok (some s.handles.length) : Fatal (Option Nat)),
            ({ world := w2,
               handles := s.handles ++ [⟨ro.path, ro.configString, ro.latestConfig⟩],
               cache := setAssoc s.cache ro.path s.handles.length } : Session Cfg)) =
            (Fatal.ok (some id), s') := h1
        have hpath : ro.path = requestedConfigPath opts := by
          refine (afterRead_effects opts (requestedConfigPath opts) content
            (schemaPathComment opts.schemaRelPath)
            { s.world with readLog := s.world.readLog ++ [requestedConfigPath opts] }).2.2 ro ?_
          rw [haf]
        have hid : s.handles.length = id := by
          have := congrArg Prod.fst h1e
          simpa using this
        have hs' : s' = ({ world := w2, handles := s.handles ++ [⟨ro.path, ro.configString, ro.latestConfig⟩], cache := setAssoc s.cache ro.path s.handles.length } : Session Cfg) :=
          (congrArg Prod.snd h1e).symm
        have hlook : lookupAssoc s'.cache (requestedConfigPath opts) = some id := by
          rw [hs']
          show lookupAssoc (setAssoc s.cache ro.path s.handles.length)
            (requestedConfigPath opts) = some id
          rw [hpath, lookupAssoc_setAssoc_self, hid]
        rw [hlook]

/-- Witness for the amended C3 at a concrete input: `d/foo.yaml` exists, so no
fallback occurs and the second invocation returns the cached handle 0 with the
session unchanged. -/
theorem init_cache_identity_witness :
    initConfigM
      ({ name := "foo", getConfigOrConfigDirPath := "d", migrations := [],
         validateAllConfigVersions := fun _ => true,
         validateLatestConfig := fun _ => true, validate := none,
         getVersion := fun _ => JsVal.num 5, parse := fun s => s.length,
         yamlDiffPatch := fun s _ _ => s, schemaRelPath := "schemas/foo.json",
         description := none, docsInConfigs := false,
         emptyObj := 0 } : InitConfigOptions Nat)
      none
      (initConfigM
        ({ name := "foo", getConfigOrConfigDirPath := "d", migrations := [],
           validateAllConfigVersions := fun _ => true,
           validateLatestConfig := fun _ => true, validate := none,
           getVersion := fun _ => JsVal.num 5, parse := fun s => s.length,
           yamlDiffPatch := fun s _ _ => s, schemaRelPath := "schemas/foo.json",
           description := none, docsInConfigs := false,
           emptyObj := 0 } : InitConfigOptions Nat)
        none ⟨⟨[("d/foo.yaml", "a: 1\n")], [], []⟩, [], []⟩).2 =
      (.ok (some 0),
        (initConfigM
          ({ name := "foo", getConfigOrConfigDirPath := "d", migrations := [],
             validateAllConfigVersions := fun _ => true,
             validateLatestConfig := fun _ => true, validate := none,
             getVersion := fun _ => JsVal.num 5, parse := fun s => s.length,
             yamlDiffPatch := fun s _ _ => s, schemaRelPath := "schemas/foo.json",
             description := none, docsInConfigs := false,
             emptyObj := 0 } : InitConfigOptions Nat)
          none ⟨⟨[("d/foo.yaml", "a: 1\n")], [], []⟩, [], []⟩).2) :=
  init_cache_identity
    ({ name := "foo", getConfigOrConfigDirPath := "d", migrations := [],
       validateAllConfigVersions := fun _ => true,
       validateLatestConfig := fun _ => true, validate := none,
       getVersion := fun _ => JsVal.num 5, parse := fun s => s.length,
       yamlDiffPatch := fun s _ _ => s, schemaRelPath := "schemas/foo.json",
       description := none, docsInConfigs := false,
       emptyObj := 0 } : InitConfigOptions Nat)
    none ⟨⟨[("d/foo.yaml", "a: 1\n")], [], []⟩, [], []⟩
    (initConfigM
      ({ name := "foo", getConfigOrConfigDirPath := "d", migrations := [],
         validateAllConfigVersions := fun _ => true,
         validateLatestConfig := fun _ => true, validate := none,
         getVersion := fun _ => JsVal.num 5, parse := fun s => s.length,
         yamlDiffPatch := fun s _ _ => s, schemaRelPath := "schemas/foo.json",
         description := none, docsInConfigs := false,
         emptyObj := 0 } : InitConfigOptions Nat)
      none ⟨⟨[("d/foo.yaml", "a: 1\n")], [], []⟩, [], []⟩).2
    0 (by decide) (by decide)

/-- Witness for the amended C7 at a concrete input: the loader writes exactly
the formatter output of the comment-corrected text. -/
theorem schema_comment_rewrite_formats_witness :
    (initReadonlyConfig
      ({ name := "foo", getConfigOrConfigDirPath := "d/foo.yaml", migrations := [],
         validateAllConfigVersions := fun _ => true,
         validateLatestConfig := fun _ => true, validate := none,
         getVersion := fun _ => JsVal.num 5, parse := fun s => s.length,
         yamlDiffPatch := fun s _ _ => s, schemaRelPath := "schemas/foo.json",
         description := none, docsInConfigs := false,
         emptyObj := 0 } : InitConfigOptions Nat)
      none
      ⟨[("d/foo.yaml", "# yaml-language-server: $schema=old\na: 1\nb: 2\n")], [], []⟩).2.writeLog =
      [] ++ [(requestedConfigPath
        ({ name := "foo", getConfigOrConfigDirPath := "d/foo.yaml", migrations := [],
           validateAllConfigVersions := fun _ => true,
           validateLatestConfig := fun _ => true, validate := none,
           getVersion := fun _ => JsVal.num 5, parse := fun s => s.length,
           yamlDiffPatch := fun s _ _ => s, schemaRelPath := "schemas/foo.json",
           description := none, docsInConfigs := false,
           emptyObj := 0 } : InitConfigOptions Nat),
        formatConfig (updateSchemaComment
          (schemaPathComment "schemas/foo.json")
          "# yaml-language-server: $schema=old\na: 1\nb: 2\n"))] :=
  (schema_comment_rewrite_formats
    ({ name := "foo", getConfigOrConfigDirPath := "d/foo.yaml", migrations := [],
       validateAllConfigVersions := fun _ => true,
       validateLatestConfig := fun _ => true, validate := none,
       getVersion := fun _ => JsVal.num 5, parse := fun s => s.length,
       yamlDiffPatch := fun s _ _ => s, schemaRelPath := "schemas/foo.json",
       description := none, docsInConfigs := false,
       emptyObj := 0 } : InitConfigOptions Nat)
    none ⟨[("d/foo.yaml", "# yaml-language-server: $schema=old\na: 1\nb: 2\n")], [], []⟩
    "# yaml-language-server: $schema=old\na: 1\nb: 2\n"
    (by decide) (by decide) (by decide) (by decide) (by decide)).1
